import Mathlib

/-!
Shallow embedding of the task prioritization and scheduling engine of
`src/services/taskBreakdownService.ts` (types from the repository's
`types.ts`), together with proofs of the specification claims.

Modelling conventions:
* JS `number` is modelled by `ℚ` (exact rationals); `Math.round x` is
  `⌊x + 1/2⌋` (round half toward +∞, as JS does) and `Math.ceil` is `⌈·⌉`.
* Date strings are modelled by their day offset from "today":
  `Task.deadline : Option ℤ` is `some k` for an ISO date `k` days from today
  (`daysBetween(todayISO(), deadline) = k`) and `none` for the `'No Deadline'`
  sentinel or an empty string (both are handled identically by the source,
  which tests `!deadline || deadline === 'No Deadline'`).  Schedule slot
  dates `startDate`/`endDate` (which the source produces as
  `today + n days` rendered to ISO strings, a strictly monotone function of
  `n`) are modelled by the day offsets `startDay`/`endDay : ℕ` themselves.
* A JS string value that may be `undefined` is modelled by `Option String`;
  `Task.assignedTo` and `ScheduleSlot.assignee` are `Option String` because
  with an empty team list the source's auto-assign `reduce` yields
  `undefined` (`teamMembers[0]` of an empty array) and stores it in the slot.
* JS `Map` objects whose value enumeration order matters are modelled by
  association lists with JS `set` semantics (update in place, append new
  keys); maps only ever read by key are modelled by total functions with the
  source's `|| 0` / `|| []` defaults built in.
-/

namespace PlanPanni

/-- Task status (`'todo' | 'in-progress' | 'done' | 'blocked'`). -/
inductive TaskStatus
  | todo
  | inProgress
  | done
  | blocked
deriving DecidableEq, Repr

/-- `enum TaskPriority` from `types.ts`. -/
inductive TaskPriority
  | critical
  | high
  | medium
  | low
deriving DecidableEq, Repr

/-- `enum TaskComplexity` from `types.ts` (numeric enum). -/
inductive TaskComplexity
  | trivialC
  | simpleC
  | moderate
  | complexC
  | epic
deriving DecidableEq, Repr

/-- Numeric value of the `TaskComplexity` enum (1, 2, 3, 5, 8). -/
def TaskComplexity.val : TaskComplexity → ℤ
  | .trivialC => 1
  | .simpleC => 2
  | .moderate => 3
  | .complexC => 5
  | .epic => 8

/-- `interface FileAttachment` carried opaquely on tasks. -/
structure FileAttachment where
  id : String
  name : String
  mimeType : String
  size : ℚ
  dataUrl : String
deriving DecidableEq, Repr

/-- `interface Task` from `types.ts`. -/
structure Task where
  id : String
  title : String
  description : String
  assignedTo : Option String
  status : TaskStatus
  deadline : Option ℤ
  priority : TaskPriority
  priorityScore : ℤ
  complexity : TaskComplexity
  estimatedHours : ℚ
  actualHours : Option ℚ
  dependencies : List String
  subtasks : Option (List String)
  parentTaskId : Option String
  tags : List String
  scheduledStart : Option ℕ
  scheduledEnd : Option ℕ
  criticalPath : Option Bool
  milestoneId : Option String
deriving DecidableEq, Repr

/-- `interface ScheduleSlot` from `types.ts` (dates as day offsets). -/
structure ScheduleSlot where
  taskId : String
  assignee : Option String
  startDay : ℕ
  endDay : ℕ
  isCriticalPath : Bool
deriving DecidableEq, Repr

/-- A suggested reassignment record of `ScheduleResult`. -/
structure Reassignment where
  taskId : String
  fromMember : String
  toMember : String
  reason : String
deriving DecidableEq, Repr

/-- `interface ScheduleResult` from `types.ts`. -/
structure ScheduleResult where
  slots : List ScheduleSlot
  criticalPathLength : ℕ
  totalEstimatedHours : ℚ
  resourceUtilization : List (String × ℤ)
  bottlenecks : List String
  suggestedReassignments : List Reassignment
deriving DecidableEq, Repr

/-- JS `Math.round`: round half toward positive infinity. -/
def jround (x : ℚ) : ℤ := ⌊x + 1 / 2⌋

/-- Association-list analogue of JS `Map.prototype.set`: update the entry in
place when the key is present, otherwise append it (preserving JS `Map`
insertion-order semantics for `values()`). -/
def jsSet {κ α : Type} [DecidableEq κ] (l : List (κ × α)) (k : κ) (v : α) :
    List (κ × α) :=
  if l.any (fun p => p.1 = k) then
    l.map (fun p => if p.1 = k then (k, v) else p)
  else
    l ++ [(k, v)]

/-- Association-list analogue of JS `Map.prototype.get`. -/
def jsGet {κ α : Type} [DecidableEq κ] (l : List (κ × α)) (k : κ) : Option α :=
  (l.find? (fun p => p.1 = k)).map (fun p => p.2)

/-- Pointwise update of a function-modelled map. -/
def mapSet {α : Type} (m : String → α) (k : String) (v : α) : String → α :=
  fun x => if x = k then v else m x

-- ─── Priority Scoring Engine ────────────────────────────────────────────────

/-- `PRIORITY_WEIGHTS` lookup (the source's `?? 50` default is unreachable
because `TaskPriority` is a closed enum). -/
def priorityWeight : TaskPriority → ℤ
  | .critical => 100
  | .high => 75
  | .medium => 50
  | .low => 25

/-- `dependentCount`: how many tasks list `taskId` among their dependencies. -/
def dependentCount (taskId : String) (allTasks : List Task) : ℕ :=
  (allTasks.filter (fun t => t.dependencies.contains taskId)).length

/-- `urgencyScore` (the argument is the modelled deadline: `none` for the
missing/sentinel deadline, `some daysLeft` otherwise, where `daysLeft` is the
source's `daysBetween(todayISO(), deadline)`). -/
def urgencyScore (deadline : Option ℤ) : ℤ :=
  match deadline with
  | none => 20
  | some daysLeft =>
      if daysLeft ≤ 0 then 100
      else if 30 ≤ daysLeft then 0
      else jround (100 * (1 - (daysLeft : ℚ) / 30))

/-- `dependencyImpactScore`: capped at 5 dependents → 100. -/
def dependencyImpactScore (taskId : String) (allTasks : List Task) : ℤ :=
  min 100 ((dependentCount taskId allTasks : ℤ) * 20)

/-- `complexityTimeScore`. -/
def complexityTimeScore (t : Task) : ℤ :=
  match t.deadline with
  | none => t.complexity.val * 10
  | some dl =>
      let daysLeft : ℤ := max 1 dl
      let hoursPerDay : ℚ := 6
      let availableHours : ℚ := (daysLeft : ℚ) * hoursPerDay
      let ratio : ℚ := t.estimatedHours / availableHours
      min 100 (jround (ratio * 100))

/-- `computePriorityScore`. -/
def computePriorityScore (t : Task) (allTasks : List Task) : ℤ :=
  if t.status = .done then 0
  else if t.status = .blocked then 5
  else
    let u := urgencyScore t.deadline
    let d := dependencyImpactScore t.id allTasks
    let c := complexityTimeScore t
    let p := priorityWeight t.priority
    jround ((u : ℚ) * (35 / 100) + (d : ℚ) * (25 / 100) +
      (c : ℚ) * (20 / 100) + (p : ℚ) * (20 / 100))

/-- Stable descending sort by an integer key, as JS `Array.prototype.sort`
with comparator `(a, b) => key b - key a` (stable since ES2019). -/
def sortByDesc {α : Type} (key : α → ℤ) (l : List α) : List α :=
  l.insertionSort (fun a b => key b ≤ key a)

/-- `rankTasks`: recompute all scores against the full input list, then sort
descending by score. -/
def rankTasks (tasks : List Task) : List Task :=
  sortByDesc (fun t => t.priorityScore)
    (tasks.map (fun t => { t with priorityScore := computePriorityScore t tasks }))

-- ─── Topological Sort (Kahn's Algorithm) ────────────────────────────────────

/-- `new Map(tasks.map(t => [t.id, t]))`: later entries overwrite earlier
ones with the same key. -/
def taskMapOf (tasks : List Task) : String → Option Task :=
  tasks.foldl (fun m t => mapSet m t.id (some t)) (fun _ => none)

/-- The key list of the `inDegree` map in JS `Map` iteration order: first
occurrence of each id, in input order. -/
def firstKeys (seen : List String) : List String → List String
  | [] => []
  | x :: xs =>
      if x ∈ seen then firstKeys seen xs else x :: firstKeys (x :: seen) xs

/-- The `inDegree` map after the two build loops, as a total function (every
task id is initialised to 0, and `Map.get` misses are absorbed by the
source's `|| 0`): for each task `t` and each of its dependencies that exists
in the task map, `t.id`'s count is incremented. -/
def inDegreeOf (tasks : List Task) : String → ℕ :=
  tasks.foldl
    (fun m t =>
      t.dependencies.foldl
        (fun m' dep =>
          if (taskMapOf tasks dep).isSome then mapSet m' t.id (m' t.id + 1)
          else m')
        m)
    (fun _ => 0)

/-- The `adjList` map after the build loop, as a total function (every task
id is initialised to `[]`): for each task `t` and each existing dependency
`dep`, `t.id` is appended to `adjList[dep]`. -/
def adjListOf (tasks : List Task) : String → List String :=
  tasks.foldl
    (fun m t =>
      t.dependencies.foldl
        (fun m' dep =>
          if (taskMapOf tasks dep).isSome then mapSet m' dep (m' dep ++ [t.id])
          else m')
        m)
    (fun _ => [])

/-- Priority score used by the queue comparator
(`taskMap.get(id)!.priorityScore`; queue ids are always present in the map). -/
def queueScore (tmap : String → Option Task) (id : String) : ℤ :=
  ((tmap id).map (fun t => t.priorityScore)).getD 0

/-- One pass of the dependent-decrement loop: for each neighbor of the popped
id, decrement its in-degree (`(inDegree.get(neighbor) || 1) - 1` — under the
loop invariants the degree is positive, so this is an ordinary decrement) and,
when it reaches 0, push it onto the queue and re-sort the queue by score. -/
def processNeighbors (tmap : String → Option Task) (neighbors : List String)
    (st : (String → ℕ) × List String) : (String → ℕ) × List String :=
  neighbors.foldl
    (fun acc neighbor =>
      let d := acc.1 neighbor
      let newDeg := (if d = 0 then 1 else d) - 1
      let m' := mapSet acc.1 neighbor newDeg
      if newDeg = 0 then
        (m', sortByDesc (queueScore tmap) (acc.2 ++ [neighbor]))
      else (m', acc.2))
    st

/-- The `while (queue.length > 0)` loop of `topologicalSort`.  Each iteration
pops one id and appends its task to `sorted`; the loop runs at most once per
distinct task id, so `fuel := tasks.length` suffices (`kahnLoop_fuel_stable`
below proves the run is fuel-independent from there on, i.e. this is the
exact JS loop).  Returns the sorted tasks together with the final in-degree
map and queue. -/
def kahnLoop (tmap : String → Option Task) (adj : String → List String) :
    ℕ → List String → (String → ℕ) → List Task →
    List Task × (String → ℕ) × List String
  | 0, queue, deg, sorted => (sorted, deg, queue)
  | fuel + 1, queue, deg, sorted =>
      match queue with
      | [] => (sorted, deg, queue)
      | id :: rest =>
          -- `taskMap.get(id)!`: queue ids are always known task ids; the
          -- `none` branch is unreachable under the loop invariants.
          let sorted' :=
            match tmap id with
            | some t => sorted ++ [t]
            | none => sorted
          let st := processNeighbors tmap (adj id) (deg, rest)
          kahnLoop tmap adj fuel st.2 st.1 sorted'

/-- The initial ready queue: all zero-in-degree ids in `inDegree` iteration
order, then sorted descending by score. -/
def initQueue (tasks : List Task) : List String :=
  sortByDesc (queueScore (taskMapOf tasks))
    ((firstKeys [] (tasks.map (fun t => t.id))).filter
      (fun id => inDegreeOf tasks id = 0))

/-- The full Kahn run of `topologicalSort` (result list, final in-degree map,
final queue). -/
def kahnRun (tasks : List Task) : List Task × (String → ℕ) × List String :=
  kahnLoop (taskMapOf tasks) (adjListOf tasks) tasks.length (initQueue tasks)
    (inDegreeOf tasks) []

/-- The `sorted` list emitted by the Kahn loop (the output of
`topologicalSort` before the cycle tail is appended). -/
def kahnList (tasks : List Task) : List Task := (kahnRun tasks).1

/-- The residual in-degree of an id after the Kahn loop has finished. -/
def residualInDegree (tasks : List Task) (id : String) : ℕ :=
  (kahnRun tasks).2.1 id

/-- `topologicalSort`: Kahn's algorithm, and if the sorted list is shorter
than the input (cycles), the remaining tasks are appended in original
order. -/
def topologicalSort (tasks : List Task) : List Task :=
  let sorted := kahnList tasks
  if sorted.length < tasks.length then
    let sortedIds := sorted.map (fun t => t.id)
    sorted ++ tasks.filter (fun t => ¬ sortedIds.contains t.id)
  else sorted

-- ─── Critical Path Analysis ─────────────────────────────────────────────────

/-- Forward pass of `computeCriticalPath`: earliest start/finish maps, built
over the topologically sorted list (`es`, `ef` as insertion-ordered maps;
the `ef.has(dep)` test is the `some`/`none` match on the lookup). -/
def cpForward (sorted : List Task) :
    List (String × ℚ) × List (String × ℚ) :=
  sorted.foldl
    (fun acc t =>
      let earliest := t.dependencies.foldl
        (fun e dep =>
          match jsGet acc.2 dep with
          | some v => max e v
          | none => e)
        0
      (jsSet acc.1 t.id earliest, jsSet acc.2 t.id (earliest + t.estimatedHours)))
    ([], [])

/-- `Math.max(...ef.values(), 0)`. -/
def cpProjectEnd (ef : List (String × ℚ)) : ℚ :=
  (ef.map (fun p => p.2)).foldl max 0

/-- Backward pass of `computeCriticalPath`: latest start/finish maps, built by
iterating the sorted list from the end (`ls`, `lf`); a successor whose latest
start is not yet known contributes `projectEnd` (the `?? projectEnd`). -/
def cpBackward (tasks sorted : List Task) (projectEnd : ℚ) :
    List (String × ℚ) × List (String × ℚ) :=
  sorted.reverse.foldl
    (fun acc t =>
      let successors := tasks.filter (fun s => s.dependencies.contains t.id)
      let lfT :=
        match successors.map (fun s => (jsGet acc.1 s.id).getD projectEnd) with
        | [] => projectEnd
        | v :: vs => vs.foldl min v
      (jsSet acc.1 t.id (lfT - t.estimatedHours), jsSet acc.2 t.id lfT))
    ([], [])

/-- The `(es, ls)` maps computed by `computeCriticalPath`. -/
def cpMaps (tasks : List Task) : List (String × ℚ) × List (String × ℚ) :=
  let sorted := topologicalSort tasks
  let fwd := cpForward sorted
  let bwd := cpBackward tasks sorted (cpProjectEnd fwd.2)
  (fwd.1, bwd.1)

/-- The float `(ls.get(id) ?? 0) - (es.get(id) ?? 0)` computed by the final
loop of `computeCriticalPath`. -/
def taskFloat (tasks : List Task) (id : String) : ℚ :=
  let maps := cpMaps tasks
  (jsGet maps.2 id).getD 0 - (jsGet maps.1 id).getD 0

/-- `computeCriticalPath`: ids whose float is within the 0.01 tolerance
(a JS `Set`, modelled as a deduplicating insertion-ordered list). -/
def computeCriticalPath (tasks : List Task) : List String :=
  tasks.foldl
    (fun acc t =>
      if |taskFloat tasks t.id| < 1 / 100 then
        if acc.contains t.id then acc else acc ++ [t.id]
      else acc)
    []

-- ─── Schedule Optimizer ─────────────────────────────────────────────────────

/-- Assignee resolution: keep `task.assignedTo` when it is a real, nonempty,
non-`'Unassigned'` member of the team; otherwise auto-assign to the member
with the smallest accumulated finish day (`reduce` seeded with
`teamMembers[0]`, which is `undefined` — `none` — for an empty team). -/
def resolveAssignee (team : List String) (afd : List (Option String × ℕ))
    (t : Task) : Option String :=
  let needsAuto :=
    match t.assignedTo with
    | none => true
    | some s => decide (s = "" ∨ s = "Unassigned" ∨ ¬ team.contains s)
  if needsAuto then
    team.foldl
      (fun best m =>
        if (jsGet afd (some m)).getD 0 < (jsGet afd best).getD 0 then some m
        else best)
      team.head?
  else t.assignedTo

/-- One iteration of the greedy scheduling loop, acting on the state
`(assigneeFinishDay, taskFinishDay, slots)`. -/
def scheduleStep (team : List String) (criticalIds : List String)
    (st : List (Option String × ℕ) × List (String × ℕ) × List ScheduleSlot)
    (t : Task) :
    List (Option String × ℕ) × List (String × ℕ) × List ScheduleSlot :=
  let afd := st.1
  let tfd := st.2.1
  let slots := st.2.2
  let earliestStart :=
    t.dependencies.foldl (fun e dep => max e ((jsGet tfd dep).getD 0)) 0
  let assignee := resolveAssignee team afd t
  let memberAvailable := (jsGet afd assignee).getD 0
  let actualStart := max earliestStart memberAvailable
  let durationDays : ℕ := (max 1 ⌈t.estimatedHours / 6⌉).toNat
  let actualEnd := actualStart + durationDays
  (jsSet afd assignee actualEnd, jsSet tfd t.id actualEnd,
   slots ++ [⟨t.id, assignee, actualStart, actualEnd, criticalIds.contains t.id⟩])

/-- The whole greedy scheduling loop over the ordered task list, starting
from a finish-day map with every team member at day 0. -/
def scheduleFold (team : List String) (criticalIds : List String)
    (ordered : List Task) :
    List (Option String × ℕ) × List (String × ℕ) × List ScheduleSlot :=
  ordered.foldl (scheduleStep team criticalIds)
    (team.foldl (fun l m => jsSet l (some m) 0) [], [], [])

/-- The reassignment-suggestion loop (step 7 of `optimizeSchedule`). -/
def suggestReassignments (team : List String) (ru : List (String × ℤ))
    (avgUtilization : ℚ) (slots : List ScheduleSlot) : List Reassignment :=
  team.foldl
    (fun acc member =>
      if avgUtilization + 25 < (((jsGet ru member).getD 0 : ℤ) : ℚ) then
        let leastLoaded :=
          team.foldl
            (fun best m =>
              if (jsGet ru m).getD 100 < (jsGet ru best).getD 100 then m
              else best)
            (team.headD "")
        if leastLoaded ≠ member then
          match slots.find? (fun s =>
              s.assignee == some member && !s.isCriticalPath) with
          | some movable =>
              let u1 := (jsGet ru member).getD 0
              let u2 := (jsGet ru leastLoaded).getD 0
              acc ++ [⟨movable.taskId, member, leastLoaded,
                s!"{member} is overloaded ({u1}% util) vs {leastLoaded} ({u2}% util)"⟩]
          | none => acc
        else acc
      else acc)
    []

/-- `optimizeSchedule`. -/
def optimizeSchedule (tasks : List Task) (teamMembers : List String) :
    ScheduleResult :=
  if tasks.length = 0 then
    { slots := [], criticalPathLength := 0, totalEstimatedHours := 0,
      resourceUtilization := [], bottlenecks := [],
      suggestedReassignments := [] }
  else
    let scored := rankTasks (tasks.filter (fun t => decide (t.status ≠ .done)))
    let criticalIds := computeCriticalPath scored
    let ordered := topologicalSort scored
    let fin := scheduleFold teamMembers criticalIds ordered
    let tfd := fin.2.1
    let slots := fin.2.2
    let projectLengthDays : ℕ := (tfd.map (fun p => p.2)).foldl max 1
    let resourceUtilization : List (String × ℤ) :=
      teamMembers.foldl
        (fun ru member =>
          let memberSlots := slots.filter (fun s => s.assignee == some member)
          let busyDays : ℕ :=
            memberSlots.foldl (fun sum s => sum + (s.endDay - s.startDay)) 0
          jsSet ru member
            (jround (((busyDays : ℚ) / (projectLengthDays : ℚ)) * 100)))
        []
    let bottlenecks :=
      (scored.filter (fun t =>
        criticalIds.contains t.id && decide (2 ≤ dependentCount t.id scored))).map
        (fun t => t.id)
    let avgUtilization : ℚ :=
      ((resourceUtilization.map (fun p => p.2)).foldl (· + ·) 0 : ℤ) /
        (teamMembers.length : ℚ)
    { slots := slots,
      criticalPathLength := projectLengthDays,
      totalEstimatedHours := scored.foldl (fun sum t => sum + t.estimatedHours) 0,
      resourceUtilization := resourceUtilization,
      bottlenecks := bottlenecks,
      suggestedReassignments :=
        suggestReassignments teamMembers resourceUtilization avgUtilization slots }

-- ─── Smart Task Breakdown Helpers ───────────────────────────────────────────

/-- The loosely-typed `Partial<Task> & { title: string }` input of
`createTask`; `none` models an absent (`undefined`) field.  The deadline is
doubly optional: the outer `Option` is field absence, the inner one is the
modelled date-or-sentinel value. -/
structure PartialTask where
  id : Option String := none
  title : String
  description : Option String := none
  assignedTo : Option String := none
  status : Option TaskStatus := none
  deadline : Option (Option ℤ) := none
  priority : Option TaskPriority := none
  priorityScore : Option ℤ := none
  complexity : Option TaskComplexity := none
  estimatedHours : Option ℚ := none
  actualHours : Option ℚ := none
  dependencies : Option (List String) := none
  subtasks : Option (List String) := none
  parentTaskId : Option String := none
  tags : Option (List String) := none
  scheduledStart : Option ℕ := none
  scheduledEnd : Option ℕ := none
  criticalPath : Option Bool := none
  milestoneId : Option String := none
deriving DecidableEq, Repr

/-- JS `x || d` for an optional string: `undefined` and the empty string are
falsy and fall through to the default. -/
def jsOrStr (x : Option String) (d : String) : String :=
  match x with
  | none => d
  | some s => if s = "" then d else s

/-- JS `x || d` for an optional number: `undefined` and `0` are falsy and
fall through to the default (negative numbers are truthy and are kept). -/
def jsOrNum (x : Option ℚ) (d : ℚ) : ℚ :=
  match x with
  | none => d
  | some v => if v = 0 then d else v

/-- JS `x || d` for an optional integer score. -/
def jsOrInt (x : Option ℤ) (d : ℤ) : ℤ :=
  match x with
  | none => d
  | some v => if v = 0 then d else v

/-- `createTask`: fill defaults.  `generatedId` models the
`Math.random().toString(36).substr(2, 9)` fallback id (nondeterministic in
the source, passed explicitly here). -/
def createTask (p : PartialTask) (generatedId : String) : Task :=
  { id := jsOrStr p.id generatedId,
    title := p.title,
    description := jsOrStr p.description "",
    assignedTo := some (jsOrStr p.assignedTo "Unassigned"),
    status := (p.status).getD .todo,
    deadline := (p.deadline).getD none,
    priority := (p.priority).getD .medium,
    priorityScore := jsOrInt p.priorityScore 0,
    complexity := (p.complexity).getD .moderate,
    estimatedHours := jsOrNum p.estimatedHours 4,
    actualHours := p.actualHours,
    dependencies := (p.dependencies).getD [],
    subtasks := p.subtasks,
    parentTaskId := p.parentTaskId,
    tags := (p.tags).getD [],
    scheduledStart := p.scheduledStart,
    scheduledEnd := p.scheduledEnd,
    criticalPath := p.criticalPath,
    milestoneId := p.milestoneId }

/-- `applySchedule`: pure merge of schedule slots onto tasks.  The slot map
`new Map(schedule.slots.map(s => [s.taskId, s]))` keeps the *last* slot for a
repeated task id, hence the lookup on the reversed list. -/
def applySchedule (tasks : List Task) (schedule : ScheduleResult) :
    List Task :=
  let slotFor : String → Option ScheduleSlot :=
    fun id => schedule.slots.reverse.find? (fun s => s.taskId = id)
  tasks.map (fun t =>
    match slotFor t.id with
    | some slot =>
        { t with
          scheduledStart := some slot.startDay,
          scheduledEnd := some slot.endDay,
          criticalPath := some slot.isCriticalPath,
          assignedTo := slot.assignee }
    | none => t)

-- ─── Spec-side formula (for the refinement claim C5) ────────────────────────

/-- Urgency factor as worded by the spec: 20 for the "No Deadline" sentinel,
100 when `daysLeft ≤ 0`, 0 when `daysLeft ≥ 30`, else
`round(100·(1 − daysLeft/30))`. -/
def specUrgency (deadline : Option ℤ) : ℤ :=
  match deadline with
  | none => 20
  | some daysLeft =>
      if daysLeft ≤ 0 then 100
      else if 30 ≤ daysLeft then 0
      else jround (100 * (1 - (daysLeft : ℚ) / 30))

/-- Dependency-impact factor as worded by the spec:
`min(100, 20 × number of tasks listing this task's id)`. -/
def specDependencyImpact (taskId : String) (allTasks : List Task) : ℤ :=
  min 100 (20 * ((allTasks.filter (fun u => u.dependencies.contains taskId)).length : ℤ))

/-- Complexity-time-pressure factor as worded by the spec: `complexity × 10`
without a deadline, `min(100, round(100·estimatedHours/(max(1, daysLeft)·6)))`
with one. -/
def specComplexityTimePressure (t : Task) : ℤ :=
  match t.deadline with
  | none => t.complexity.val * 10
  | some daysLeft =>
      min 100 (jround (100 * t.estimatedHours / (((max 1 daysLeft : ℤ) : ℚ) * 6)))

/-- Manual-weight factor as worded by the spec: 100/75/50/25 for
critical/high/medium/low. -/
def specManualWeight : TaskPriority → ℤ
  | .critical => 100
  | .high => 75
  | .medium => 50
  | .low => 25

/-- The spec's score formula
`round(0.35·Urgency + 0.25·DependencyImpact + 0.20·ComplexityTimePressure +
0.20·ManualWeight)`. -/
def specScoreFormula (t : Task) (allTasks : List Task) : ℤ :=
  jround ((35 : ℚ) / 100 * (specUrgency t.deadline : ℚ) +
    (25 : ℚ) / 100 * (specDependencyImpact t.id allTasks : ℚ) +
    (20 : ℚ) / 100 * (specComplexityTimePressure t : ℚ) +
    (20 : ℚ) / 100 * (specManualWeight t.priority : ℚ))

-- ─── Concrete fixtures for witnesses and counterexamples ────────────────────

/-- A task with the factory defaults and the given id, dependencies,
estimated hours, deadline and status (used as concrete test data). -/
def mkTask (id : String) (deps : List String) (est : ℚ)
    (dl : Option ℤ := none) (status : TaskStatus := .todo) : Task :=
  { id := id, title := id, description := "", assignedTo := some "Unassigned",
    status := status, deadline := dl, priority := .medium, priorityScore := 0,
    complexity := .moderate, estimatedHours := est, actualHours := none,
    dependencies := deps, subtasks := none, parentTaskId := none, tags := [],
    scheduledStart := none, scheduledEnd := none, criticalPath := none,
    milestoneId := none }

/-- First half of a 2-cycle: `x` depends on `y`. -/
def cycTaskX : Task := mkTask "x" ["y"] 6

/-- Second half of a 2-cycle: `y` depends on `x`. -/
def cycTaskY : Task := mkTask "y" ["x"] 6

/-- First node of a 3-cycle (spec example 8): `X` depends on `Y`. -/
def cyc3X : Task := mkTask "X" ["Y"] 4

/-- Second node of a 3-cycle: `Y` depends on `Z`. -/
def cyc3Y : Task := mkTask "Y" ["Z"] 4

/-- Third node of a 3-cycle: `Z` depends on `X`. -/
def cyc3Z : Task := mkTask "Z" ["X"] 4

/-- An independent task used in witnesses. -/
def taskA : Task := mkTask "A" [] 12 (some 0)

/-- A task depending on `taskA`, used in witnesses. -/
def taskB : Task := mkTask "B" ["A"] 6

/-- The number of dependencies of `t` that exist in the task map and are not
yet in the sorted output — the quantity the `inDegree` bookkeeping tracks. -/
def remCount (tasks sorted : List Task) (t : Task) : ℕ :=
  (t.dependencies.filter (fun d =>
    (taskMapOf tasks d).isSome && !((sorted.map (fun u => u.id)).contains d))).length

/-- The invariant of the Kahn while-loop: the emitted prefix is
duplicate-free and topologically valid, the queue holds exactly the known,
unemitted, fully-ready ids, and the in-degree map counts each task's
remaining unemitted existing dependencies. -/
structure KahnInv (tasks : List Task) (queue : List String)
    (deg : String → ℕ) (sorted : List Task) : Prop where
  sortedNodup : (sorted.map (fun t => t.id)).Nodup
  sortedMem : ∀ t ∈ sorted, taskMapOf tasks t.id = some t
  queueNodup : queue.Nodup
  queueNotSorted : ∀ q ∈ queue, q ∉ sorted.map (fun t => t.id)
  queueKnown : ∀ q ∈ queue, (taskMapOf tasks q).isSome
  queueReady : ∀ q ∈ queue, ∀ t, taskMapOf tasks q = some t →
    ∀ d ∈ t.dependencies, (taskMapOf tasks d).isSome →
      d ∈ sorted.map (fun u => u.id)
  topo : ∀ pre t suf, sorted = pre ++ t :: suf →
    ∀ d ∈ t.dependencies, (taskMapOf tasks d).isSome →
      d ∈ pre.map (fun u => u.id)
  degCorrect : ∀ k t, taskMapOf tasks k = some t → deg k = remCount tasks sorted t
  queueComplete : ∀ k t, taskMapOf tasks k = some t →
    k ∉ sorted.map (fun u => u.id) → remCount tasks sorted t = 0 → k ∈ queue

-- ─── Basic lemmas about JS rounding ─────────────────────────────────────────

theorem jround_le_int (x : ℚ) (n : ℤ) (h : x ≤ (n : ℚ)) : jround x ≤ n := by
  unfold jround
  have h1 : ⌊x + 1 / 2⌋ ≤ ⌊(n : ℚ) + 1 / 2⌋ := Int.floor_le_floor (by linarith)
  have h2 : ⌊(n : ℚ) + 1 / 2⌋ = n := by
    rw [Int.floor_eq_iff]
    exact ⟨by linarith, by linarith⟩
  omega

theorem int_le_jround (x : ℚ) (n : ℤ) (h : (n : ℚ) ≤ x) : n ≤ jround x :=
  Int.le_floor.mpr (by linarith)

theorem urgencyScore_bounds (d : Option ℤ) :
    0 ≤ urgencyScore d ∧ urgencyScore d ≤ 100 := by
  cases d with
  | none => norm_num [urgencyScore]
  | some dl =>
      simp only [urgencyScore]
      split_ifs with h1 h2
      · norm_num
      · norm_num
      · have hq1 : (1 : ℚ) ≤ (dl : ℚ) := by exact_mod_cast (by omega : (1 : ℤ) ≤ dl)
        have hq2 : (dl : ℚ) ≤ 29 := by exact_mod_cast (by omega : dl ≤ 29)
        constructor
        · exact int_le_jround _ _ (by push_cast; linarith)
        · exact jround_le_int _ _ (by push_cast; linarith)

theorem dependencyImpactScore_bounds (id : String) (ts : List Task) :
    0 ≤ dependencyImpactScore id ts ∧ dependencyImpactScore id ts ≤ 100 := by
  unfold dependencyImpactScore
  refine ⟨le_min (by norm_num) (by positivity), min_le_left _ _⟩

theorem complexityTimeScore_bounds (t : Task) (hest : 0 ≤ t.estimatedHours) :
    0 ≤ complexityTimeScore t ∧ complexityTimeScore t ≤ 100 := by
  unfold complexityTimeScore
  match hd : t.deadline with
  | none => cases t.complexity <;> norm_num [TaskComplexity.val]
  | some dl =>
      have hpos : (0 : ℚ) < ((max 1 dl : ℤ) : ℚ) * 6 := by
        have : (1 : ℤ) ≤ max 1 dl := le_max_left _ _
        have : (1 : ℚ) ≤ ((max 1 dl : ℤ) : ℚ) := by exact_mod_cast this
        linarith
      refine ⟨le_min (by norm_num) ?_, min_le_left _ _⟩
      exact int_le_jround _ _ (by positivity)

theorem priorityWeight_bounds (p : TaskPriority) :
    0 ≤ priorityWeight p ∧ priorityWeight p ≤ 100 := by
  cases p <;> norm_num [priorityWeight]

/-- **C6.** For every task (with the data-model invariant
`estimatedHours ≥ 0`) and every task list, `computePriorityScore` is an
integer in `[0, 100]`; it is exactly 0 for a `done` task and exactly 5 for a
`blocked` task. -/
theorem claim_C6_score_bounds (t : Task) (ts : List Task)
    (hest : 0 ≤ t.estimatedHours) :
    (0 ≤ computePriorityScore t ts ∧ computePriorityScore t ts ≤ 100) ∧
    (t.status = .done → computePriorityScore t ts = 0) ∧
    (t.status = .blocked → computePriorityScore t ts = 5) := by
  refine ⟨?_, fun h => by simp [computePriorityScore, h],
    fun h => by simp [computePriorityScore, h]⟩
  by_cases h1 : t.status = .done
  · simp [computePriorityScore, h1]
  by_cases h2 : t.status = .blocked
  · simp [computePriorityScore, h1, h2]
  simp only [computePriorityScore, if_neg h1, if_neg h2]
  obtain ⟨hu0, hu1⟩ := urgencyScore_bounds t.deadline
  obtain ⟨hd0, hd1⟩ := dependencyImpactScore_bounds t.id ts
  obtain ⟨hc0, hc1⟩ := complexityTimeScore_bounds t hest
  obtain ⟨hp0, hp1⟩ := priorityWeight_bounds t.priority
  have hu0' : (0 : ℚ) ≤ (urgencyScore t.deadline : ℚ) := by exact_mod_cast hu0
  have hu1' : (urgencyScore t.deadline : ℚ) ≤ 100 := by exact_mod_cast hu1
  have hd0' : (0 : ℚ) ≤ (dependencyImpactScore t.id ts : ℚ) := by
    exact_mod_cast hd0
  have hd1' : (dependencyImpactScore t.id ts : ℚ) ≤ 100 := by exact_mod_cast hd1
  have hc0' : (0 : ℚ) ≤ (complexityTimeScore t : ℚ) := by exact_mod_cast hc0
  have hc1' : (complexityTimeScore t : ℚ) ≤ 100 := by exact_mod_cast hc1
  have hp0' : (0 : ℚ) ≤ (priorityWeight t.priority : ℚ) := by exact_mod_cast hp0
  have hp1' : (priorityWeight t.priority : ℚ) ≤ 100 := by exact_mod_cast hp1
  constructor
  · exact int_le_jround _ _ (by push_cast; linarith)
  · exact jround_le_int _ _ (by push_cast; linarith)

/-- Witness for C6 at a concrete input. -/
theorem claim_C6_score_bounds_witness :
    0 ≤ taskA.estimatedHours ∧
    ((0 ≤ computePriorityScore taskA [taskA, taskB] ∧
      computePriorityScore taskA [taskA, taskB] ≤ 100) ∧
     (taskA.status = .done → computePriorityScore taskA [taskA, taskB] = 0) ∧
     (taskA.status = .blocked → computePriorityScore taskA [taskA, taskB] = 5)) :=
  ⟨by norm_num [taskA, mkTask],
   claim_C6_score_bounds taskA [taskA, taskB] (by norm_num [taskA, mkTask])⟩

/-- **C5.** For a task that is neither `done` nor `blocked`,
`computePriorityScore` equals the spec's weighted-factor formula
(`specScoreFormula`, transcribed from the claim's wording). -/
theorem claim_C5_score_formula (t : Task) (ts : List Task)
    (h1 : t.status ≠ .done) (h2 : t.status ≠ .blocked) :
    computePriorityScore t ts = specScoreFormula t ts := by
  simp only [computePriorityScore, specScoreFormula, if_neg h1, if_neg h2]
  have hu : urgencyScore t.deadline = specUrgency t.deadline := rfl
  have hd : dependencyImpactScore t.id ts = specDependencyImpact t.id ts := by
    unfold dependencyImpactScore specDependencyImpact dependentCount
    rw [mul_comm]
  have hc : complexityTimeScore t = specComplexityTimePressure t := by
    unfold complexityTimeScore specComplexityTimePressure
    match t.deadline with
    | none => rfl
    | some dl =>
        simp only []
        congr 1
        unfold jround
        congr 1
        ring
  have hp : priorityWeight t.priority = specManualWeight t.priority := by
    cases t.priority <;> rfl
  rw [hu, hd, hc, hp]
  congr 1
  ring

/-- Witness for C5 at a concrete input. -/
theorem claim_C5_score_formula_witness :
    taskB.status ≠ TaskStatus.done ∧ taskB.status ≠ TaskStatus.blocked ∧
    computePriorityScore taskB [taskA, taskB] = specScoreFormula taskB [taskA, taskB] :=
  ⟨by decide, by decide,
   claim_C5_score_formula taskB [taskA, taskB] (by decide) (by decide)⟩

/-- **C7.** `optimizeSchedule` on an empty task list returns the zero-valued
result for any team list, without error. -/
theorem claim_C7_empty_tasks (team : List String) :
    optimizeSchedule [] team =
      { slots := [], criticalPathLength := 0, totalEstimatedHours := 0,
        resourceUtilization := [], bottlenecks := [],
        suggestedReassignments := [] } := rfl

/-- The failing input of C8: a partial task carrying negative estimated
hours. -/
def c8Input : PartialTask := { title := "t", estimatedHours := some (-5) }

/-- **C8 (code bug).** `createTask` propagates a negative `estimatedHours`
into the created task: JS `partial.estimatedHours || 4` replaces only the
falsy `0` (and `undefined`), while `-5` is truthy and is kept, violating the
spec's "`estimatedHours` > 0 (degenerate zero/negative must be clamped or
rejected)". -/
theorem claim_C8_negative_hours :
    (createTask c8Input "gid").estimatedHours = -5 ∧
    ¬ 0 < (createTask c8Input "gid").estimatedHours ∧
    (createTask { title := "t", estimatedHours := some 0 } "gid").estimatedHours = 4 := by
  refine ⟨?_, ?_, ?_⟩ <;> norm_num [createTask, c8Input, jsOrNum]

-- ─── Summation lemma for C10 ────────────────────────────────────────────────

theorem foldl_add_map (f : Task → ℚ) (l : List Task) (a : ℚ) :
    l.foldl (fun s t => s + f t) a = a + (l.map f).sum := by
  induction l generalizing a with
  | nil => simp
  | cons x xs ih => simp [ih, add_assoc]

theorem rankTasks_perm (l : List Task) :
    List.Perm (rankTasks l)
      (l.map (fun t => { t with priorityScore := computePriorityScore t l })) :=
  List.perm_insertionSort _ _

/-- **C10.** For a non-empty task list, `totalEstimatedHours` is the sum of
`estimatedHours` over exactly the input tasks whose status is not `done`. -/
theorem claim_C10_total_hours (tasks : List Task) (team : List String)
    (h : tasks ≠ []) :
    (optimizeSchedule tasks team).totalEstimatedHours =
      ((tasks.filter (fun t => decide (t.status ≠ TaskStatus.done))).map
        (fun t => t.estimatedHours)).sum := by
  have hlen : ¬ tasks.length = 0 := fun hh => h (List.length_eq_zero.mp hh)
  simp only [optimizeSchedule, if_neg hlen]
  rw [foldl_add_map, zero_add]
  set l := tasks.filter (fun t => decide (t.status ≠ TaskStatus.done)) with hl
  have hperm := (rankTasks_perm l).map (fun t => t.estimatedHours)
  rw [hperm.sum_eq, List.map_map]
  rfl

/-- Witness for C10 at a concrete input. -/
theorem claim_C10_total_hours_witness :
    ([taskA, taskB] : List Task) ≠ [] ∧
    (optimizeSchedule [taskA, taskB] ["Alice"]).totalEstimatedHours =
      ((([taskA, taskB] : List Task).filter
        (fun t => decide (t.status ≠ TaskStatus.done))).map
        (fun t => t.estimatedHours)).sum :=
  ⟨by decide, claim_C10_total_hours [taskA, taskB] ["Alice"] (by decide)⟩

-- ─── C9: applySchedule is a pure frame-preserving merge ─────────────────────

/-- **C9.** `applySchedule` is a pure merge: the output is pointwise — the
`i`-th output task comes from the `i`-th input task; a task with no matching
slot passes through unchanged; a task whose id matches a slot (the JS `Map`
lookup, i.e. the last slot with that id) gets exactly `scheduledStart`,
`scheduledEnd`, `criticalPath` and `assignedTo` from that slot and keeps
every other field unchanged. -/
theorem claim_C9_apply_schedule (tasks : List Task) (sched : ScheduleResult) :
    (applySchedule tasks sched).length = tasks.length ∧
    ∀ i (hi : i < tasks.length) (hi2 : i < (applySchedule tasks sched).length),
      (((tasks.get ⟨i, hi⟩).id ∈ sched.slots.map (fun s => s.taskId)) →
        ∃ slot, sched.slots.reverse.find?
          (fun s => s.taskId = (tasks.get ⟨i, hi⟩).id) = some slot) ∧
      ((∀ s ∈ sched.slots, s.taskId ≠ (tasks.get ⟨i, hi⟩).id) →
        (applySchedule tasks sched).get ⟨i, hi2⟩ = tasks.get ⟨i, hi⟩) ∧
      ∀ slot,
        sched.slots.reverse.find?
          (fun s => s.taskId = (tasks.get ⟨i, hi⟩).id) = some slot →
        ((applySchedule tasks sched).get ⟨i, hi2⟩) =
          { tasks.get ⟨i, hi⟩ with
            scheduledStart := some slot.startDay,
            scheduledEnd := some slot.endDay,
            criticalPath := some slot.isCriticalPath,
            assignedTo := slot.assignee } := by
  refine ⟨by simp [applySchedule], ?_⟩
  intro i hi hi2
  have hget : (applySchedule tasks sched).get ⟨i, hi2⟩ =
      (fun t : Task =>
        match sched.slots.reverse.find? (fun s => s.taskId = t.id) with
        | some slot =>
            { t with
              scheduledStart := some slot.startDay,
              scheduledEnd := some slot.endDay,
              criticalPath := some slot.isCriticalPath,
              assignedTo := slot.assignee }
        | none => t) (tasks.get ⟨i, hi⟩) := by
    simp [applySchedule]
  refine ⟨?_, ?_, ?_⟩
  · intro hmem
    obtain ⟨s, hs, hsid⟩ := List.mem_map.mp hmem
    rcases hfind : sched.slots.reverse.find?
        (fun s => s.taskId = (tasks.get ⟨i, hi⟩).id) with _ | slot
    · exfalso
      have := List.find?_eq_none.mp hfind s (List.mem_reverse.mpr hs)
      simp [hsid] at this
    · exact ⟨slot, hfind⟩
  · intro hnone
    have hfind : sched.slots.reverse.find?
        (fun s => s.taskId = (tasks.get ⟨i, hi⟩).id) = none := by
      apply List.find?_eq_none.mpr
      intro s hs
      simpa using hnone s (List.mem_reverse.mp hs)
    simp only [hget, hfind]
  · intro slot hslot
    simp only [hget, hslot]

/-- Witness for C9 at a concrete input. -/
theorem claim_C9_apply_schedule_witness :
    (0 < ([taskA, taskB] : List Task).length ∧
     0 < (applySchedule [taskA, taskB]
        (optimizeSchedule [taskA, taskB] ["Alice"])).length) ∧
    ((((([taskA, taskB] : List Task).get ⟨0, by decide⟩).id ∈
        (optimizeSchedule [taskA, taskB] ["Alice"]).slots.map
          (fun s => s.taskId)) →
      ∃ slot, (optimizeSchedule [taskA, taskB] ["Alice"]).slots.reverse.find?
        (fun s => s.taskId = ((([taskA, taskB] : List Task).get ⟨0, by decide⟩)).id) =
          some slot) ∧
     ((∀ s ∈ (optimizeSchedule [taskA, taskB] ["Alice"]).slots,
        s.taskId ≠ (([taskA, taskB] : List Task).get ⟨0, by decide⟩).id) →
      (applySchedule [taskA, taskB]
        (optimizeSchedule [taskA, taskB] ["Alice"])).get ⟨0, by decide⟩ =
        ([taskA, taskB] : List Task).get ⟨0, by decide⟩) ∧
     ∀ slot,
       (optimizeSchedule [taskA, taskB] ["Alice"]).slots.reverse.find?
         (fun s => s.taskId = (([taskA, taskB] : List Task).get ⟨0, by decide⟩).id) =
           some slot →
       ((applySchedule [taskA, taskB]
          (optimizeSchedule [taskA, taskB] ["Alice"])).get ⟨0, by decide⟩) =
         { ([taskA, taskB] : List Task).get ⟨0, by decide⟩ with
           scheduledStart := some slot.startDay,
           scheduledEnd := some slot.endDay,
           criticalPath := some slot.isCriticalPath,
           assignedTo := slot.assignee }) :=
  ⟨⟨by decide, by decide⟩,
   (claim_C9_apply_schedule [taskA, taskB]
      (optimizeSchedule [taskA, taskB] ["Alice"])).2 0 (by decide) (by decide)⟩

-- ─── Characterization of the Kahn data structures ───────────────────────────

theorem taskMapOf_foldl (l : List Task) (m : String → Option Task) (k : String) :
    (l.foldl (fun m t => mapSet m t.id (some t)) m) k =
      match l.reverse.find? (fun t => t.id = k) with
      | some t => some t
      | none => m k := by
  induction l generalizing m with
  | nil => simp
  | cons t ts ih =>
      simp only [List.foldl_cons, List.reverse_cons, ih, List.find?_append]
      cases hf : ts.reverse.find? (fun u => decide (u.id = k)) with
      | some u => simp [hf]
      | none =>
          by_cases hk : t.id = k
          · simp [hf, List.find?, hk, mapSet]
          · simp [hf, List.find?, hk, mapSet, Ne.symm hk]

theorem taskMapOf_eq_find (tasks : List Task) (k : String) :
    taskMapOf tasks k = tasks.reverse.find? (fun t => t.id = k) := by
  unfold taskMapOf
  rw [taskMapOf_foldl]
  cases tasks.reverse.find? (fun t => decide (t.id = k)) <;> rfl

theorem taskMapOf_isSome_iff (tasks : List Task) (k : String) :
    (taskMapOf tasks k).isSome ↔ k ∈ tasks.map (fun t => t.id) := by
  rw [taskMapOf_eq_find]
  constructor
  · intro h
    obtain ⟨t, ht⟩ := Option.isSome_iff_exists.mp h
    have hmem := List.mem_of_find?_eq_some ht
    have hid := List.find?_some ht
    simp only [decide_eq_true_eq] at hid
    exact List.mem_map.mpr ⟨t, List.mem_reverse.mp hmem, hid⟩
  · intro h
    obtain ⟨t, ht, hid⟩ := List.mem_map.mp h
    rcases hf : tasks.reverse.find? (fun t => t.id = k) with _ | u
    · exfalso
      have hnone := List.find?_eq_none.mp hf t (List.mem_reverse.mpr ht)
      simp [hid] at hnone
    · simp [hf]

theorem taskMapOf_mem {tasks : List Task} {k : String} {t : Task}
    (h : taskMapOf tasks k = some t) : t ∈ tasks ∧ t.id = k := by
  rw [taskMapOf_eq_find] at h
  refine ⟨List.mem_reverse.mp (List.mem_of_find?_eq_some h), ?_⟩
  have := List.find?_some h
  simpa using this

theorem id_inj {tasks : List Task}
    (hids : (tasks.map (fun t => t.id)).Nodup) :
    ∀ t ∈ tasks, ∀ u ∈ tasks, t.id = u.id → t = u := by
  intro t ht u hu heq
  exact List.inj_on_of_nodup_map hids ht hu heq

theorem taskMapOf_self {tasks : List Task}
    (hids : (tasks.map (fun t => t.id)).Nodup) {t : Task} (ht : t ∈ tasks) :
    taskMapOf tasks t.id = some t := by
  have hsome : (taskMapOf tasks t.id).isSome :=
    (taskMapOf_isSome_iff tasks t.id).mpr (List.mem_map_of_mem _ ht)
  obtain ⟨u, hu⟩ := Option.isSome_iff_exists.mp hsome
  obtain ⟨humem, huid⟩ := taskMapOf_mem hu
  rw [hu, id_inj hids u humem t ht huid]

theorem filter_id_singleton {tasks : List Task}
    (hids : (tasks.map (fun t => t.id)).Nodup) {t : Task} (ht : t ∈ tasks) :
    tasks.filter (fun u => u.id = t.id) = [t] := by
  induction tasks with
  | nil => simp at ht
  | cons a l ih =>
      simp only [List.map_cons, List.nodup_cons] at hids
      rcases List.mem_cons.mp ht with heq | ht2
      · subst heq
        have hnil : l.filter (fun u => u.id = t.id) = [] := by
          rw [List.filter_eq_nil_iff]
          intro u hu
          simp only [decide_eq_true_eq]
          exact fun h => hids.1 (h ▸ List.mem_map_of_mem (fun t => t.id) hu)
        simp [List.filter_cons, hnil]
      · have hne : ¬ a.id = t.id := fun h =>
          hids.1 (h ▸ List.mem_map_of_mem (fun t => t.id) ht2)
        simp only [List.filter_cons, decide_eq_true_eq, hne, if_false]
        exact ih hids.2 ht2

theorem degInner (c : String → Bool) (tid : String) (deps : List String)
    (m : String → ℕ) (k : String) :
    (deps.foldl (fun m' dep =>
        if c dep then mapSet m' tid (m' tid + 1) else m') m) k
      = if k = tid then m k + (deps.filter c).length else m k := by
  induction deps generalizing m with
  | nil => simp
  | cons d ds ih =>
      simp only [List.foldl_cons]
      by_cases hc : c d
      · rw [if_pos hc, ih]
        simp only [List.filter_cons, hc, if_true]
        by_cases hk : k = tid
        · simp [hk, mapSet]
          omega
        · simp [hk, mapSet]
      · rw [if_neg hc, ih]
        simp [List.filter_cons, hc]

theorem degOuter (c : String → Bool) (l : List Task) (m : String → ℕ)
    (k : String) :
    (l.foldl (fun m t => t.dependencies.foldl (fun m' dep =>
        if c dep then mapSet m' t.id (m' t.id + 1) else m') m) m) k
      = m k + ((l.filter (fun t => t.id = k)).map
          (fun t => (t.dependencies.filter c).length)).sum := by
  induction l generalizing m with
  | nil => simp
  | cons t ts ih =>
      simp only [List.foldl_cons, ih, degInner, List.filter_cons]
      by_cases hk : t.id = k
      · simp [hk]
        omega
      · simp [hk, Ne.symm hk]

theorem inDegreeOf_eq (tasks : List Task) (k : String) :
    inDegreeOf tasks k =
      ((tasks.filter (fun t => t.id = k)).map
        (fun t => (t.dependencies.filter
          (fun d => (taskMapOf tasks d).isSome)).length)).sum := by
  unfold inDegreeOf
  rw [degOuter]
  simp

theorem remCount_nil (tasks : List Task) (t : Task) :
    remCount tasks [] t =
      (t.dependencies.filter (fun d => (taskMapOf tasks d).isSome)).length := by
  unfold remCount
  congr 1
  apply List.filter_congr
  intro d _
  simp

theorem inDegreeOf_at {tasks : List Task}
    (hids : (tasks.map (fun t => t.id)).Nodup) {t : Task} (ht : t ∈ tasks) :
    inDegreeOf tasks t.id = remCount tasks [] t := by
  rw [inDegreeOf_eq, filter_id_singleton hids ht, remCount_nil]
  simp

theorem adjInner (c : String → Bool) (tid : String) (deps : List String)
    (hdep : deps.Nodup) (m : String → List String) (k : String) :
    (deps.foldl (fun m' dep =>
        if c dep then mapSet m' dep (m' dep ++ [tid]) else m') m) k
      = if c k ∧ k ∈ deps then m k ++ [tid] else m k := by
  induction deps generalizing m with
  | nil => simp
  | cons d ds ih =>
      simp only [List.nodup_cons] at hdep
      simp only [List.foldl_cons]
      by_cases hc : c d
      · rw [if_pos hc, ih hdep.2]
        by_cases hk : k = d
        · subst hk
          simp [hdep.1, mapSet, hc]
        · simp only [mapSet, if_neg hk]
          by_cases hck : c k ∧ k ∈ ds
          · rw [if_pos hck, if_pos ⟨hck.1, List.mem_cons_of_mem d hck.2⟩]
          · rw [if_neg hck, if_neg ?_]
            rintro ⟨h1, h2⟩
            rcases List.mem_cons.mp h2 with rfl | h3
            · exact hk rfl
            · exact hck ⟨h1, h3⟩
      · rw [if_neg hc, ih hdep.2]
        by_cases hck : c k ∧ k ∈ ds
        · rw [if_pos hck, if_pos ⟨hck.1, List.mem_cons_of_mem d hck.2⟩]
        · rw [if_neg hck, if_neg ?_]
          rintro ⟨h1, h2⟩
          rcases List.mem_cons.mp h2 with rfl | h3
          · exact hc (by simpa using h1)
          · exact hck ⟨h1, h3⟩

theorem adjOuter (c : String → Bool) (l : List Task)
    (hdeps : ∀ t ∈ l, t.dependencies.Nodup) (m : String → List String)
    (k : String) :
    (l.foldl (fun m t => t.dependencies.foldl (fun m' dep =>
        if c dep then mapSet m' dep (m' dep ++ [t.id]) else m') m) m) k
      = if c k then
          m k ++ (l.filter (fun t => t.dependencies.contains k)).map
            (fun t => t.id)
        else m k := by
  induction l generalizing m with
  | nil => simp
  | cons t ts ih =>
      simp only [List.foldl_cons]
      rw [ih (fun u hu => hdeps u (List.mem_cons_of_mem t hu)),
        adjInner c t.id t.dependencies (hdeps t (List.mem_cons_self t ts))]
      by_cases hck : c k
      · simp only [hck, true_and, if_pos hck, List.filter_cons]
        by_cases hmem : k ∈ t.dependencies
        · have : t.dependencies.contains k = true := by
            simpa [List.elem_iff] using hmem
          simp [hmem, this, List.append_assoc]
        · have : ¬ t.dependencies.contains k = true := by
            simpa [List.elem_iff] using hmem
          simp [hmem, this]
      · simp [hck]

theorem adjListOf_eq (tasks : List Task)
    (hdeps : ∀ t ∈ tasks, t.dependencies.Nodup) (k : String) :
    adjListOf tasks k =
      if (taskMapOf tasks k).isSome then
        (tasks.filter (fun t => t.dependencies.contains k)).map (fun t => t.id)
      else [] := by
  unfold adjListOf
  rw [adjOuter (fun dep => (taskMapOf tasks dep).isSome) tasks hdeps]
  split <;> simp

theorem adjListOf_nodup {tasks : List Task}
    (hids : (tasks.map (fun t => t.id)).Nodup)
    (hdeps : ∀ t ∈ tasks, t.dependencies.Nodup) (k : String) :
    (adjListOf tasks k).Nodup := by
  rw [adjListOf_eq tasks hdeps]
  split
  · exact hids.sublist ((List.filter_sublist tasks).map (fun t => t.id))
  · exact List.nodup_nil

theorem adjListOf_mem {tasks : List Task}
    (hdeps : ∀ t ∈ tasks, t.dependencies.Nodup) {k j : String} :
    j ∈ adjListOf tasks k ↔
      (taskMapOf tasks k).isSome ∧
        ∃ u ∈ tasks, u.id = j ∧ k ∈ u.dependencies := by
  rw [adjListOf_eq tasks hdeps]
  split
  · rename_i hs
    simp only [hs, true_and, List.mem_map, List.mem_filter]
    constructor
    · rintro ⟨u, ⟨hu, hcont⟩, rfl⟩
      exact ⟨u, hu, rfl, by simpa [List.elem_iff] using hcont⟩
    · rintro ⟨u, hu, rfl, hmem⟩
      exact ⟨u, ⟨hu, by simpa [List.elem_iff] using hmem⟩, rfl⟩
  · rename_i hs
    simp [hs]

theorem sortByDesc_perm {α : Type} (key : α → ℤ) (l : List α) :
    List.Perm (sortByDesc key l) l :=
  List.perm_insertionSort _ _

theorem remCount_eq_zero_iff {tasks sorted : List Task} {t : Task} :
    remCount tasks sorted t = 0 ↔
      ∀ d ∈ t.dependencies, (taskMapOf tasks d).isSome →
        d ∈ sorted.map (fun u => u.id) := by
  unfold remCount
  rw [List.length_eq_zero, List.filter_eq_nil_iff]
  constructor
  · intro h d hd hsome
    have := h d hd
    simp only [Bool.and_eq_true, Bool.not_eq_true', not_and] at this
    have h2 := this hsome
    simpa [List.elem_iff] using h2
  · intro h d hd
    simp only [Bool.and_eq_true, Bool.not_eq_true', not_and]
    intro hsome
    simpa [List.elem_iff] using h d hd hsome

theorem filter_length_succ {l : List String} (hnd : l.Nodup)
    {p q : String → Bool} {a : String} (ha : a ∈ l) (hpa : p a = true)
    (hqa : q a = false) (hcong : ∀ x ∈ l, x ≠ a → p x = q x) :
    (l.filter p).length = (l.filter q).length + 1 := by
  induction l with
  | nil => simp at ha
  | cons b bs ih =>
      simp only [List.nodup_cons] at hnd
      rcases List.mem_cons.mp ha with rfl | ha2
      · have hfeq : bs.filter p = bs.filter q := by
          apply List.filter_congr
          intro x hx
          exact hcong x (List.mem_cons_of_mem _ hx)
            (fun h => hnd.1 (h ▸ hx))
        simp [List.filter_cons, hpa, hqa, hfeq]
      · by_cases hb : b = a
        · subst hb
          exact absurd ha2 hnd.1
        · have hpq := hcong b (List.mem_cons_self b bs) hb
          have ihr := ih hnd.2 ha2
            (fun x hx hxa => hcong x (List.mem_cons_of_mem b hx) hxa)
          simp only [List.filter_cons, hpq]
          cases hqb : q b <;> simp [ihr]

theorem topo_rem_zero {tasks sorted : List Task}
    (htopo : ∀ pre t0 suf, sorted = pre ++ t0 :: suf →
      ∀ d ∈ t0.dependencies, (taskMapOf tasks d).isSome →
        d ∈ pre.map (fun u => u.id)) :
    ∀ v ∈ sorted, remCount tasks sorted v = 0 := by
  intro v hv
  obtain ⟨pre, suf, heq⟩ := List.append_of_mem hv
  apply remCount_eq_zero_iff.mpr
  intro d hd hsome
  have hpre := htopo pre v suf heq d hd hsome
  rw [heq]
  simp only [List.map_append, List.map_cons]
  exact List.mem_append.mpr (Or.inl hpre)

theorem processNeighbors_spec (tmap : String → Option Task)
    (ns : List String) (hns : ns.Nodup) (deg : String → ℕ)
    (target : String → ℕ) (q : List String)
    (hdeg : ∀ k ∈ ns, deg k = target k + 1) :
    (∀ k, (processNeighbors tmap ns (deg, q)).1 k =
        if k ∈ ns then target k else deg k) ∧
    List.Perm (processNeighbors tmap ns (deg, q)).2
      (q ++ ns.filter (fun k => target k = 0)) := by
  induction ns generalizing deg q with
  | nil => simp [processNeighbors]
  | cons n rest ih =>
      simp only [List.nodup_cons] at hns
      have hdn : deg n = target n + 1 := hdeg n (List.mem_cons_self n rest)
      have hstep : processNeighbors tmap (n :: rest) (deg, q) =
          processNeighbors tmap rest
            (mapSet deg n (target n),
             if target n = 0 then sortByDesc (queueScore tmap) (q ++ [n]) else q) := by
        unfold processNeighbors
        simp only [List.foldl_cons, hdn]
        have h1 : ¬ target n + 1 = 0 := by omega
        rw [if_neg h1]
        have h2 : target n + 1 - 1 = target n := by omega
        rw [h2]
        by_cases h0 : target n = 0
        · rw [if_pos h0, if_pos h0]
        · rw [if_neg h0, if_neg h0]
      rw [hstep]
      have hdeg' : ∀ k ∈ rest, mapSet deg n (target n) k = target k + 1 := by
        intro k hk
        have hkn : k ≠ n := fun h => hns.1 (h ▸ hk)
        simp only [mapSet, if_neg hkn]
        exact hdeg k (List.mem_cons_of_mem n hk)
      obtain ⟨hmap, hperm⟩ := ih hns.2 (mapSet deg n (target n)) _ hdeg'
      constructor
      · intro k
        rw [hmap k]
        by_cases hk : k ∈ n :: rest
        · rcases List.mem_cons.mp hk with rfl | hk2
          · have : k ∉ rest := hns.1
            simp [this, hk, mapSet]
          · simp [hk2, hk]
        · have hk1 : k ∉ rest := fun h => hk (List.mem_cons_of_mem n h)
          have hk2 : k ≠ n := fun h => hk (h ▸ List.mem_cons_self n rest)
          simp [hk1, hk, mapSet, hk2]
      · refine hperm.trans ?_
        by_cases h0 : target n = 0
        · rw [if_pos h0]
          have hsp : List.Perm (sortByDesc (queueScore tmap) (q ++ [n]))
              (q ++ [n]) := sortByDesc_perm _ _
          refine (hsp.append_right _).trans ?_
          rw [List.append_assoc]
          simp only [List.filter_cons, h0]
          simp
        · rw [if_neg h0]
          simp only [List.filter_cons]
          have : ¬ (target n = 0 : Bool) = true := by simpa using h0
          simp [h0]

theorem queue_empty_of_full {tasks : List Task}
    {queue : List String} {deg : String → ℕ} {sorted : List Task}
    (inv : KahnInv tasks queue deg sorted)
    (hlen : tasks.length ≤ sorted.length) : queue = [] := by
  cases hq : queue with
  | nil => rfl
  | cons q rest =>
      exfalso
      subst hq
      have hqk := inv.queueKnown q (List.mem_cons_self q rest)
      have hqmem : q ∈ tasks.map (fun t => t.id) :=
        (taskMapOf_isSome_iff tasks q).mp hqk
      have hsub : (sorted.map (fun t => t.id)) ⊆ tasks.map (fun t => t.id) := by
        intro x hx
        obtain ⟨v, hv, hvx⟩ := List.mem_map.mp hx
        obtain ⟨hvt, _⟩ := taskMapOf_mem (inv.sortedMem v hv)
        exact hvx ▸ List.mem_map_of_mem _ hvt
      have hsp := List.subperm_of_subset inv.sortedNodup hsub
      have hperm := hsp.perm_of_length_le (by simpa using hlen)
      exact inv.queueNotSorted q (List.mem_cons_self q rest)
        (hperm.mem_iff.mpr hqmem)

theorem kahnLoop_spec {tasks : List Task}
    (hids : (tasks.map (fun t => t.id)).Nodup)
    (hdeps : ∀ t ∈ tasks, t.dependencies.Nodup) :
    ∀ (fuel : ℕ) (queue : List String) (deg : String → ℕ) (sorted : List Task),
      KahnInv tasks queue deg sorted →
      tasks.length ≤ fuel + sorted.length →
      KahnInv tasks []
        (kahnLoop (taskMapOf tasks) (adjListOf tasks) fuel queue deg sorted).2.1
        (kahnLoop (taskMapOf tasks) (adjListOf tasks) fuel queue deg sorted).1 ∧
      (kahnLoop (taskMapOf tasks) (adjListOf tasks) fuel queue deg sorted).2.2
        = [] := by
  intro fuel
  induction fuel with
  | zero =>
      intro queue deg sorted inv hlen
      have hq : queue = [] := queue_empty_of_full inv (by omega)
      subst hq
      exact ⟨inv, rfl⟩
  | succ fuel ih =>
      intro queue deg sorted inv hlen
      cases queue with
      | nil => exact ⟨inv, rfl⟩
      | cons id rest =>
          obtain ⟨t, ht⟩ := Option.isSome_iff_exists.mp
            (inv.queueKnown id (List.mem_cons_self id rest))
          obtain ⟨htmem, htid⟩ := taskMapOf_mem ht
          have hid_not_sorted : id ∉ sorted.map (fun u => u.id) :=
            inv.queueNotSorted id (List.mem_cons_self id rest)
          have hready : ∀ d ∈ t.dependencies, (taskMapOf tasks d).isSome →
              d ∈ sorted.map (fun u => u.id) :=
            inv.queueReady id (List.mem_cons_self id rest) t ht
          have hunfold : kahnLoop (taskMapOf tasks) (adjListOf tasks) (fuel + 1)
              (id :: rest) deg sorted =
            kahnLoop (taskMapOf tasks) (adjListOf tasks) fuel
              (processNeighbors (taskMapOf tasks) (adjListOf tasks id)
                (deg, rest)).2
              (processNeighbors (taskMapOf tasks) (adjListOf tasks id)
                (deg, rest)).1
              (sorted ++ [t]) := by
            simp only [kahnLoop, ht]
          rw [hunfold]
          have hns_nodup : (adjListOf tasks id).Nodup :=
            adjListOf_nodup hids hdeps id
          have hns_mem : ∀ k ∈ adjListOf tasks id, ∃ u,
              taskMapOf tasks k = some u ∧ u ∈ tasks ∧ u.id = k ∧
                id ∈ u.dependencies := by
            intro k hk
            obtain ⟨-, u, hu, huk, hdep⟩ := (adjListOf_mem hdeps).mp hk
            exact ⟨u, huk ▸ taskMapOf_self hids hu, hu, huk, hdep⟩
          have hmem_ns : ∀ u ∈ tasks, id ∈ u.dependencies →
              u.id ∈ adjListOf tasks id := by
            intro u hu hdep
            exact (adjListOf_mem hdeps).mpr ⟨by rw [ht]; rfl, u, hu, rfl, hdep⟩
          have hmap_append : (sorted ++ [t]).map (fun u => u.id)
              = sorted.map (fun u => u.id) ++ [id] := by
            simp [htid]
          have hnot_mem_iff : ∀ d, (d ∉ (sorted ++ [t]).map (fun u => u.id)) ↔
              (d ∉ sorted.map (fun u => u.id) ∧ d ≠ id) := by
            intro d
            rw [hmap_append]
            simp [not_or]
          have hmem_pres : ∀ d, d ∈ sorted.map (fun u => u.id) →
              d ∈ (sorted ++ [t]).map (fun u => u.id) := by
            intro d hd
            rw [hmap_append]
            exact List.mem_append.mpr (Or.inl hd)
          have hcond_same : ∀ x, x ≠ id →
              ((taskMapOf tasks x).isSome &&
                !((sorted.map (fun u => u.id)).contains x)) =
              ((taskMapOf tasks x).isSome &&
                !(((sorted ++ [t]).map (fun u => u.id)).contains x)) := by
            intro x hx
            have hiff : (x ∈ (sorted ++ [t]).map (fun u => u.id)) ↔
                (x ∈ sorted.map (fun u => u.id)) := by
              rw [hmap_append]
              simp [hx]
            have hc : ((sorted.map (fun u => u.id)).contains x) =
                (((sorted ++ [t]).map (fun u => u.id)).contains x) := by
              rw [Bool.eq_iff_iff]
              rw [List.elem_iff, List.elem_iff]
              exact hiff.symm
            rw [hc]
          have hcondT : ∀ (s : List Task) (d : String),
              (((taskMapOf tasks d).isSome &&
                !((s.map (fun u => u.id)).contains d)) = true) ↔
              ((taskMapOf tasks d).isSome ∧
                d ∉ s.map (fun u => u.id)) := by
            intro s d
            simp [List.elem_iff]
          have hrem_changed : ∀ u ∈ tasks, id ∈ u.dependencies →
              remCount tasks sorted u = remCount tasks (sorted ++ [t]) u + 1 := by
            intro u hu hdep
            unfold remCount
            apply filter_length_succ (hdeps u hu) hdep
            · rw [hcondT]
              exact ⟨by rw [ht]; rfl, hid_not_sorted⟩
            · rw [Bool.eq_false_iff, Ne, hcondT]
              rintro ⟨-, hnm⟩
              apply hnm
              rw [hmap_append]
              exact List.mem_append.mpr (Or.inr (List.mem_singleton.mpr rfl))
            · intro x hx hxid
              exact hcond_same x hxid
          have hrem_same : ∀ u ∈ tasks, id ∉ u.dependencies →
              remCount tasks sorted u = remCount tasks (sorted ++ [t]) u := by
            intro u hu hdep
            unfold remCount
            congr 1
            apply List.filter_congr
            intro x hx
            exact hcond_same x (fun h => hdep (h ▸ hx))
          set target : String → ℕ := fun k =>
            match taskMapOf tasks k with
            | some u => remCount tasks (sorted ++ [t]) u
            | none => 0 with htarget
          have htarget_at : ∀ k u, taskMapOf tasks k = some u →
              target k = remCount tasks (sorted ++ [t]) u := by
            intro k u hk
            simp only [htarget, hk]
          have hdeg : ∀ k ∈ adjListOf tasks id, deg k = target k + 1 := by
            intro k hk
            obtain ⟨u, hku, humem, hkid, hdep⟩ := hns_mem k hk
            rw [inv.degCorrect k u hku, htarget_at k u hku]
            exact hrem_changed u humem hdep
          obtain ⟨hmap, hqperm⟩ := processNeighbors_spec (taskMapOf tasks)
            (adjListOf tasks id) hns_nodup deg target rest hdeg
          have hqn := inv.queueNodup
          rw [List.nodup_cons] at hqn
          have hrest_deg0 : ∀ k ∈ rest, deg k = 0 := by
            intro k hk
            obtain ⟨u, hku⟩ := Option.isSome_iff_exists.mp
              (inv.queueKnown k (List.mem_cons_of_mem id hk))
            rw [inv.degCorrect k u hku]
            exact remCount_eq_zero_iff.mpr
              (inv.queueReady k (List.mem_cons_of_mem id hk) u hku)
          have hpush_not_rest : ∀ k ∈ adjListOf tasks id, target k = 0 →
              k ∉ rest := by
            intro k hkns h0 hkr
            have hd := hdeg k hkns
            rw [hrest_deg0 k hkr, h0] at hd
            omega
          have hid_not_ns : id ∉ adjListOf tasks id := by
            intro hkn
            obtain ⟨u, hku, humem, hkid, hdep⟩ := hns_mem id hkn
            rw [ht] at hku
            injection hku with hut
            subst hut
            exact hid_not_sorted (hready id hdep (by rw [ht]; rfl))
          have hsort_rem0 := topo_rem_zero inv.topo
          have hpush_not_sorted : ∀ k ∈ adjListOf tasks id, target k = 0 →
              k ∉ (sorted ++ [t]).map (fun u => u.id) := by
            intro k hkns h0
            obtain ⟨u, hku, humem, hkid, hdep⟩ := hns_mem k hkns
            rw [hnot_mem_iff]
            refine ⟨?_, fun hkeq => hid_not_ns (hkeq ▸ hkns)⟩
            intro hk_sorted
            obtain ⟨v, hv, hvid⟩ := List.mem_map.mp hk_sorted
            have hvmap := inv.sortedMem v hv
            rw [hvid, hku] at hvmap
            injection hvmap with huv
            have hrem := hsort_rem0 v hv
            rw [← huv] at hrem
            have hd := hdeg k hkns
            rw [inv.degCorrect k u hku, hrem, h0] at hd
            omega
          have htopo' : ∀ pre t0 suf, sorted ++ [t] = pre ++ t0 :: suf →
              ∀ d ∈ t0.dependencies, (taskMapOf tasks d).isSome →
                d ∈ pre.map (fun u => u.id) := by
            intro pre t0 suf heq d hd hsome
            rcases suf.eq_nil_or_concat' with rfl | ⟨suf', x, rfl⟩
            · obtain ⟨h1, h2⟩ := List.append_inj' heq rfl
              have ht0 : t = t0 := by injection h2
              subst ht0
              rw [← h1]
              exact hready d hd hsome
            · have heq2 : sorted ++ [t] = (pre ++ t0 :: suf') ++ [x] := by
                rw [heq]
                simp
              obtain ⟨h1, -⟩ := List.append_inj' heq2 rfl
              exact inv.topo pre t0 suf' h1 d hd hsome
          have inv' : KahnInv tasks
              (processNeighbors (taskMapOf tasks) (adjListOf tasks id)
                (deg, rest)).2
              (processNeighbors (taskMapOf tasks) (adjListOf tasks id)
                (deg, rest)).1
              (sorted ++ [t]) := by
            constructor
            · rw [hmap_append]
              exact inv.sortedNodup.append (List.nodup_singleton id)
                (fun a ha hb =>
                  hid_not_sorted ((List.mem_singleton.mp hb) ▸ ha))
            · intro v hv
              rcases List.mem_append.mp hv with hv1 | hv2
              · exact inv.sortedMem v hv1
              · rw [List.mem_singleton] at hv2
                subst hv2
                rw [htid]
                exact ht
            · rw [hqperm.nodup_iff]
              refine hqn.2.append (hns_nodup.filter _) ?_
              intro k hk hkp
              have h0 : target k = 0 := by
                simpa using List.of_mem_filter hkp
              exact hpush_not_rest k (List.mem_of_mem_filter hkp) h0 hk
            · intro q hq
              rcases List.mem_append.mp (hqperm.mem_iff.mp hq) with hq1 | hq2
              · rw [hnot_mem_iff]
                exact ⟨inv.queueNotSorted q (List.mem_cons_of_mem id hq1),
                  fun h => hqn.1 (h ▸ hq1)⟩
              · exact hpush_not_sorted q (List.mem_of_mem_filter hq2)
                  (by simpa using List.of_mem_filter hq2)
            · intro q hq
              rcases List.mem_append.mp (hqperm.mem_iff.mp hq) with hq1 | hq2
              · exact inv.queueKnown q (List.mem_cons_of_mem id hq1)
              · obtain ⟨u, hku, -, -, -⟩ := hns_mem q (List.mem_of_mem_filter hq2)
                rw [hku]
                rfl
            · intro q hq u hqu d hd hsome
              rcases List.mem_append.mp (hqperm.mem_iff.mp hq) with hq1 | hq2
              · exact hmem_pres d
                  (inv.queueReady q (List.mem_cons_of_mem id hq1) u hqu d hd hsome)
              · have h0 : target q = 0 := by
                  simpa using List.of_mem_filter hq2
                rw [htarget_at q u hqu] at h0
                exact remCount_eq_zero_iff.mp h0 d hd hsome
            · exact htopo'
            · intro k u hk
              rw [hmap k]
              by_cases hkns : k ∈ adjListOf tasks id
              · rw [if_pos hkns]
                exact htarget_at k u hk
              · rw [if_neg hkns, inv.degCorrect k u hk]
                apply hrem_same u (taskMapOf_mem hk).1
                intro hdep
                exact hkns ((taskMapOf_mem hk).2 ▸
                  hmem_ns u (taskMapOf_mem hk).1 hdep)
            · intro k u hk hknots hrem0
              rw [hqperm.mem_iff]
              apply List.mem_append.mpr
              by_cases hdep : id ∈ u.dependencies
              · right
                have hkns : k ∈ adjListOf tasks id :=
                  (taskMapOf_mem hk).2 ▸ hmem_ns u (taskMapOf_mem hk).1 hdep
                apply List.mem_filter.mpr
                refine ⟨hkns, ?_⟩
                simp [htarget_at k u hk, hrem0]
              · left
                have hks : k ∉ sorted.map (fun u => u.id) :=
                  ((hnot_mem_iff k).mp hknots).1
                have hkid : k ≠ id := ((hnot_mem_iff k).mp hknots).2
                have hrem : remCount tasks sorted u = 0 := by
                  rw [hrem_same u (taskMapOf_mem hk).1 hdep]
                  exact hrem0
                rcases List.mem_cons.mp (inv.queueComplete k u hk hks hrem)
                  with h | h
                · exact absurd h hkid
                · exact h
          refine ih _ _ _ inv' ?_
          simp only [List.length_append, List.length_cons, List.length_nil]
          omega

theorem firstKeys_eq_filter (l : List String) : ∀ seen, l.Nodup →
    firstKeys seen l = l.filter (fun x => decide (x ∉ seen)) := by
  induction l with
  | nil => intro seen _; rfl
  | cons x xs ih =>
      intro seen hnd
      rw [List.nodup_cons] at hnd
      simp only [firstKeys, List.filter_cons]
      by_cases hx : x ∈ seen
      · rw [if_pos hx, ih seen hnd.2]
        simp [hx]
      · rw [if_neg hx, ih (x :: seen) hnd.2]
        simp only [hx, not_false_eq_true, decide_eq_true_eq, if_pos]
        congr 1
        apply List.filter_congr
        intro y hy
        have hyx : y ≠ x := fun h => hnd.1 (h ▸ hy)
        simp [List.mem_cons, hyx]

theorem firstKeys_nodup (l : List String) (hnd : l.Nodup) :
    firstKeys [] l = l := by
  rw [firstKeys_eq_filter l [] hnd]
  simp

theorem initQueue_perm {tasks : List Task}
    (hids : (tasks.map (fun t => t.id)).Nodup) :
    List.Perm (initQueue tasks)
      ((tasks.map (fun t => t.id)).filter
        (fun id => decide (inDegreeOf tasks id = 0))) := by
  unfold initQueue
  rw [firstKeys_nodup _ hids]
  exact sortByDesc_perm _ _

theorem kahnInit_inv {tasks : List Task}
    (hids : (tasks.map (fun t => t.id)).Nodup) :
    KahnInv tasks (initQueue tasks) (inDegreeOf tasks) [] := by
  have hqmem : ∀ q ∈ initQueue tasks,
      q ∈ tasks.map (fun t => t.id) ∧ inDegreeOf tasks q = 0 := by
    intro q hq
    have := (initQueue_perm hids).mem_iff.mp hq
    exact ⟨List.mem_of_mem_filter this, by simpa using List.of_mem_filter this⟩
  constructor
  · simp
  · intro t ht
    simp at ht
  · exact ((initQueue_perm hids).nodup_iff).mpr (hids.filter _)
  · intro q hq
    simp
  · intro q hq
    exact (taskMapOf_isSome_iff tasks q).mpr (hqmem q hq).1
  · intro q hq u hqu d hd hsome
    obtain ⟨humem, huid⟩ := taskMapOf_mem hqu
    have hdeg0 := (hqmem q hq).2
    rw [← huid, inDegreeOf_at hids humem] at hdeg0
    exact remCount_eq_zero_iff.mp hdeg0 d hd hsome
  · intro pre t0 suf heq
    exact absurd heq (by simp)
  · intro k u hk
    obtain ⟨humem, huid⟩ := taskMapOf_mem hk
    rw [← huid]
    exact inDegreeOf_at hids humem
  · intro k u hk _ hrem0
    obtain ⟨humem, huid⟩ := taskMapOf_mem hk
    rw [(initQueue_perm hids).mem_iff]
    apply List.mem_filter.mpr
    refine ⟨huid ▸ List.mem_map_of_mem _ humem, ?_⟩
    simp only [decide_eq_true_eq]
    rw [← huid, inDegreeOf_at hids humem]
    exact hrem0

/-- The final state of the Kahn run: the emitted list satisfies the loop
invariant with an empty queue, and the queue as returned is indeed empty
(so the fuel `tasks.length` was sufficient and the fueled loop computes the
same result as the source's unbounded `while` loop). -/
theorem kahnRun_spec {tasks : List Task}
    (hids : (tasks.map (fun t => t.id)).Nodup)
    (hdeps : ∀ t ∈ tasks, t.dependencies.Nodup) :
    KahnInv tasks [] (kahnRun tasks).2.1 (kahnList tasks) ∧
    (kahnRun tasks).2.2 = [] := by
  unfold kahnList kahnRun
  exact kahnLoop_spec hids hdeps tasks.length (initQueue tasks)
    (inDegreeOf tasks) [] (kahnInit_inv hids) (by simp)

theorem kahnList_sub {tasks : List Task}
    (hids : (tasks.map (fun t => t.id)).Nodup)
    (hdeps : ∀ t ∈ tasks, t.dependencies.Nodup) :
    ∀ v ∈ kahnList tasks, v ∈ tasks := by
  intro v hv
  exact (taskMapOf_mem ((kahnRun_spec hids hdeps).1.sortedMem v hv)).1

theorem topologicalSort_eq_append {tasks : List Task}
    (hids : (tasks.map (fun t => t.id)).Nodup)
    (hdeps : ∀ t ∈ tasks, t.dependencies.Nodup) :
    topologicalSort tasks = kahnList tasks ++
      tasks.filter (fun t =>
        ¬ ((kahnList tasks).map (fun t => t.id)).contains t.id) := by
  unfold topologicalSort
  by_cases h : (kahnList tasks).length < tasks.length
  · rw [if_pos h]
  · rw [if_neg h]
    have hsub : ((kahnList tasks).map (fun t => t.id)) ⊆
        tasks.map (fun t => t.id) := by
      intro x hx
      obtain ⟨v, hv, hvx⟩ := List.mem_map.mp hx
      exact hvx ▸ List.mem_map_of_mem _ (kahnList_sub hids hdeps v hv)
    have hperm := (List.subperm_of_subset
      (kahnRun_spec hids hdeps).1.sortedNodup hsub).perm_of_length_le
      (by simpa using Nat.le_of_not_lt h)
    have hnil : tasks.filter (fun t =>
        ¬ ((kahnList tasks).map (fun t => t.id)).contains t.id) = [] := by
      rw [List.filter_eq_nil_iff]
      intro t ht
      simp only [decide_eq_true_eq, Decidable.not_not]
      exact List.elem_iff.mpr (hperm.mem_iff.mpr (List.mem_map_of_mem _ ht))
    rw [hnil, List.append_nil]

/-- **C2.** In the output of `topologicalSort`, excluding the
unresolved-cycle tail (i.e. within the Kahn-emitted prefix `kahnList`,
which the output extends with the tail as the second conjunct states), every
dependency of a task that exists in the input id set appears strictly
earlier in the output. -/
theorem claim_C2_topological_validity (tasks : List Task)
    (hids : (tasks.map (fun t => t.id)).Nodup)
    (hdeps : ∀ t ∈ tasks, t.dependencies.Nodup) :
    (topologicalSort tasks = kahnList tasks ++
      tasks.filter (fun t =>
        ¬ ((kahnList tasks).map (fun t => t.id)).contains t.id)) ∧
    ∀ i (hi : i < (kahnList tasks).length)
      (hi2 : i < (topologicalSort tasks).length),
      ∀ d ∈ ((topologicalSort tasks).get ⟨i, hi2⟩).dependencies,
        d ∈ tasks.map (fun t => t.id) →
        ∃ j, ∃ hj : j < (topologicalSort tasks).length, j < i ∧
          ((topologicalSort tasks).get ⟨j, hj⟩).id = d := by
  have happ := topologicalSort_eq_append hids hdeps
  refine ⟨happ, ?_⟩
  intro i hi hi2 d hd hdmem
  have finv := (kahnRun_spec hids hdeps).1
  have hgeti : (topologicalSort tasks).get ⟨i, hi2⟩ =
      (kahnList tasks).get ⟨i, hi⟩ := by
    have := happ ▸ hi2
    rw [List.get_of_eq happ]
    exact List.get_append i hi
  have hdecomp : kahnList tasks =
      (kahnList tasks).take i ++ (kahnList tasks).get ⟨i, hi⟩ ::
        (kahnList tasks).drop (i + 1) := by
    conv_lhs => rw [← List.take_append_drop i (kahnList tasks)]
    rw [List.drop_eq_get_cons hi]
  rw [hgeti] at hd
  have hpre := finv.topo _ _ _ hdecomp d hd
    ((taskMapOf_isSome_iff tasks d).mpr hdmem)
  obtain ⟨v, hv, hvd⟩ := List.mem_map.mp hpre
  obtain ⟨⟨j, hjlen⟩, hget⟩ := List.mem_iff_get.mp hv
  have hji : j < i := by
    have := hjlen
    simp only [List.length_take] at this
    omega
  have hjk : j < (kahnList tasks).length := by omega
  have hjo : j < (topologicalSort tasks).length := by
    rw [happ, List.length_append]
    omega
  refine ⟨j, hjo, hji, ?_⟩
  have hgetj : (topologicalSort tasks).get ⟨j, hjo⟩ =
      (kahnList tasks).get ⟨j, hjk⟩ := by
    rw [List.get_of_eq happ]
    exact List.get_append j hjk
  rw [hgetj]
  have htake : ((kahnList tasks).take i).get ⟨j, hjlen⟩ =
      (kahnList tasks).get ⟨j, hjk⟩ := by
    simp [List.get_eq_getElem, List.getElem_take]
  rw [← htake, hget, hvd]

/-- Witness for C2 at a concrete input. -/
theorem claim_C2_topological_validity_witness :
    (([taskA, taskB].map (fun t => t.id)).Nodup ∧
      ∀ t ∈ [taskA, taskB], t.dependencies.Nodup) ∧
    ((topologicalSort [taskA, taskB] = kahnList [taskA, taskB] ++
      [taskA, taskB].filter (fun t =>
        ¬ ((kahnList [taskA, taskB]).map (fun t => t.id)).contains t.id)) ∧
    ∀ i (hi : i < (kahnList [taskA, taskB]).length)
      (hi2 : i < (topologicalSort [taskA, taskB]).length),
      ∀ d ∈ ((topologicalSort [taskA, taskB]).get ⟨i, hi2⟩).dependencies,
        d ∈ [taskA, taskB].map (fun t => t.id) →
        ∃ j, ∃ hj : j < (topologicalSort [taskA, taskB]).length, j < i ∧
          ((topologicalSort [taskA, taskB]).get ⟨j, hj⟩).id = d) :=
  ⟨⟨by decide, by decide⟩,
   claim_C2_topological_validity [taskA, taskB] (by decide) (by decide)⟩

/-- **C3.** `topologicalSort` terminates on every input (it is a total
function), its output is a permutation of the input, and the tasks not
emitted by the Kahn loop — exactly those with residual in-degree > 0 — are
appended at the end in their original input order. -/
theorem topologicalSort_perm {tasks : List Task}
    (hids : (tasks.map (fun t => t.id)).Nodup)
    (hdeps : ∀ t ∈ tasks, t.dependencies.Nodup) :
    List.Perm (topologicalSort tasks) tasks := by
  obtain ⟨finv, hqnil⟩ := kahnRun_spec hids hdeps
  have happ := topologicalSort_eq_append hids hdeps
  have htasks_nodup : tasks.Nodup := hids.of_map
  have hkahn_nodup : (kahnList tasks).Nodup := finv.sortedNodup.of_map
  rw [happ]
  have hout_nodup : (kahnList tasks ++ tasks.filter (fun t =>
      ¬ ((kahnList tasks).map (fun t => t.id)).contains t.id)).Nodup := by
    refine hkahn_nodup.append (htasks_nodup.filter _) ?_
    intro v hvk hvf
    have hcond := List.of_mem_filter hvf
    simp only [decide_eq_true_eq] at hcond
    exact hcond (List.elem_iff.mpr (List.mem_map_of_mem _ hvk))
  rw [List.perm_ext_iff_of_nodup hout_nodup htasks_nodup]
  intro a
  constructor
  · intro ha
    rcases List.mem_append.mp ha with h | h
    · exact kahnList_sub hids hdeps a h
    · exact List.mem_of_mem_filter h
  · intro ha
    apply List.mem_append.mpr
    by_cases hk : a.id ∈ (kahnList tasks).map (fun t => t.id)
    · left
      obtain ⟨v, hv, hvd⟩ := List.mem_map.mp hk
      have hvm := finv.sortedMem v hv
      rw [hvd, taskMapOf_self hids ha] at hvm
      injection hvm with hva
      exact hva ▸ hv
    · right
      apply List.mem_filter.mpr
      refine ⟨ha, ?_⟩
      simp only [decide_eq_true_eq]
      intro hc
      exact hk (List.elem_iff.mp hc)

/-- **C3.** `topologicalSort` terminates on every input (it is a total
function), its output is a permutation of the input, and the tasks not
emitted by the Kahn loop — exactly those with residual in-degree > 0 — are
appended at the end in their original input order. -/
theorem claim_C3_cycle_handling (tasks : List Task)
    (hids : (tasks.map (fun t => t.id)).Nodup)
    (hdeps : ∀ t ∈ tasks, t.dependencies.Nodup) :
    List.Perm (topologicalSort tasks) tasks ∧
    (topologicalSort tasks = kahnList tasks ++
      tasks.filter (fun t =>
        ¬ ((kahnList tasks).map (fun t => t.id)).contains t.id)) ∧
    ∀ t ∈ tasks, (t.id ∉ (kahnList tasks).map (fun t => t.id) ↔
      0 < residualInDegree tasks t.id) := by
  obtain ⟨finv, hqnil⟩ := kahnRun_spec hids hdeps
  refine ⟨topologicalSort_perm hids hdeps,
    topologicalSort_eq_append hids hdeps, ?_⟩
  intro t ht
  have htm := taskMapOf_self hids ht
  constructor
  · intro hnot
    have hrem : remCount tasks (kahnList tasks) t ≠ 0 := by
      intro h0
      have hmem0 := finv.queueComplete t.id t htm hnot h0
      simp at hmem0
    have := finv.degCorrect t.id t htm
    unfold residualInDegree
    omega
  · intro hpos hmem
    obtain ⟨v, hv, hvd⟩ := List.mem_map.mp hmem
    have hrem := topo_rem_zero finv.topo v hv
    have hdc := finv.degCorrect v.id v (finv.sortedMem v hv)
    unfold residualInDegree at hpos
    rw [← hvd] at hpos
    omega

/-- Witness for C3 at the spec's 3-cycle example. -/
theorem claim_C3_cycle_handling_witness :
    (([cyc3X, cyc3Y, cyc3Z].map (fun t => t.id)).Nodup ∧
      ∀ t ∈ [cyc3X, cyc3Y, cyc3Z], t.dependencies.Nodup) ∧
    (List.Perm (topologicalSort [cyc3X, cyc3Y, cyc3Z]) [cyc3X, cyc3Y, cyc3Z] ∧
    (topologicalSort [cyc3X, cyc3Y, cyc3Z] = kahnList [cyc3X, cyc3Y, cyc3Z] ++
      [cyc3X, cyc3Y, cyc3Z].filter (fun t =>
        ¬ ((kahnList [cyc3X, cyc3Y, cyc3Z]).map
          (fun t => t.id)).contains t.id)) ∧
    ∀ t ∈ [cyc3X, cyc3Y, cyc3Z],
      (t.id ∉ (kahnList [cyc3X, cyc3Y, cyc3Z]).map (fun t => t.id) ↔
        0 < residualInDegree [cyc3X, cyc3Y, cyc3Z] t.id)) :=
  ⟨⟨by decide, by decide⟩,
   claim_C3_cycle_handling [cyc3X, cyc3Y, cyc3Z] (by decide) (by decide)⟩

-- ─── Association-list and fold lemmas for the CPM passes ────────────────────

theorem jsGet_cons {κ α : Type} [DecidableEq κ] (a : κ × α) (l : List (κ × α))
    (k : κ) : jsGet (a :: l) k = if a.1 = k then some a.2 else jsGet l k := by
  unfold jsGet
  rw [List.find?_cons]
  by_cases h : a.1 = k
  · simp [h]
  · simp [h]

theorem jsGet_map_replace_ne {κ α : Type} [DecidableEq κ] (l : List (κ × α))
    (k k' : κ) (v : α) (h : k' ≠ k) :
    jsGet (l.map (fun p => if p.1 = k then (k, v) else p)) k' = jsGet l k' := by
  induction l with
  | nil => rfl
  | cons a t ih =>
      simp only [List.map_cons]
      by_cases ha : a.1 = k
      · rw [if_pos ha, jsGet_cons, jsGet_cons, if_neg (Ne.symm h),
          if_neg (fun hh => h (hh.symm.trans ha))]
        exact ih
      · rw [if_neg ha, jsGet_cons, jsGet_cons]
        by_cases hk : a.1 = k'
        · rw [if_pos hk, if_pos hk]
        · rw [if_neg hk, if_neg hk]
          exact ih

theorem jsGet_map_replace_self {κ α : Type} [DecidableEq κ]
    (l : List (κ × α)) (k : κ) (v : α)
    (h : l.any (fun p => p.1 = k) = true) :
    jsGet (l.map (fun p => if p.1 = k then (k, v) else p)) k = some v := by
  induction l with
  | nil => simp at h
  | cons a t ih =>
      simp only [List.map_cons]
      by_cases ha : a.1 = k
      · rw [if_pos ha, jsGet_cons, if_pos rfl]
      · rw [if_neg ha, jsGet_cons, if_neg ha]
        apply ih
        simp only [List.any_cons, Bool.or_eq_true] at h
        rcases h with h | h
        · exact absurd (by simpa using h) ha
        · exact h

theorem jsGet_set {κ α : Type} [DecidableEq κ] (l : List (κ × α)) (k k' : κ)
    (v : α) :
    jsGet (jsSet l k v) k' = if k' = k then some v else jsGet l k' := by
  unfold jsSet
  by_cases hany : l.any (fun p => p.1 = k) = true
  · rw [if_pos hany]
    by_cases hk : k' = k
    · rw [if_pos hk, hk]
      exact jsGet_map_replace_self l k v hany
    · rw [if_neg hk]
      exact jsGet_map_replace_ne l k k' v hk
  · rw [if_neg hany]
    induction l with
    | nil =>
        rw [List.nil_append, jsGet_cons]
        by_cases hk : k' = k
        · simp [hk]
        · simp [hk, Ne.symm hk, jsGet]
    | cons a t ih =>
        rw [List.cons_append, jsGet_cons, jsGet_cons]
        have hany' : ¬ t.any (fun p => p.1 = k) = true := by
          intro hh
          exact hany (by simp [List.any_cons, hh])
        have ha : ¬ a.1 = k := by
          intro hh
          exact hany (by simp [List.any_cons, hh])
        by_cases hk : a.1 = k'
        · rw [if_pos hk, if_pos hk]
          rw [if_neg (fun hh : k' = k => ha (hk.trans hh))]
        · rw [if_neg hk, if_neg hk]
          exact ih hany'

theorem jsGet_isSome_iff {κ α : Type} [DecidableEq κ] (l : List (κ × α))
    (k : κ) : (jsGet l k).isSome ↔ k ∈ l.map (fun p => p.1) := by
  induction l with
  | nil => simp [jsGet]
  | cons a t ih =>
      rw [jsGet_cons]
      by_cases h : a.1 = k
      · simp [h]
      · simp only [List.map_cons, List.mem_cons]
        rw [if_neg h, ih]
        constructor
        · exact Or.inr
        · rintro (rfl | hh)
          · exact absurd rfl h
          · exact hh

theorem jsSet_keys_new {κ α : Type} [DecidableEq κ] (l : List (κ × α))
    (k : κ) (v : α) (h : k ∉ l.map (fun p => p.1)) :
    jsSet l k v = l ++ [(k, v)] := by
  unfold jsSet
  rw [if_neg]
  intro hany
  obtain ⟨p, hp, hpk⟩ := List.any_eq_true.mp hany
  exact h ((by simpa using hpk : p.1 = k) ▸ List.mem_map_of_mem _ hp)

theorem mem_jsGet {κ α : Type} [DecidableEq κ] {l : List (κ × α)}
    {p : κ × α} (hl : (l.map (fun p => p.1)).Nodup) (hp : p ∈ l) :
    jsGet l p.1 = some p.2 := by
  induction l with
  | nil => simp at hp
  | cons a t ih =>
      simp only [List.map_cons, List.nodup_cons] at hl
      rw [jsGet_cons]
      rcases List.mem_cons.mp hp with rfl | hp2
      · rw [if_pos rfl]
      · have hne : a.1 ≠ p.1 := by
          intro hh
          exact hl.1 (hh ▸ List.mem_map_of_mem _ hp2)
        rw [if_neg hne]
        exact ih hl.2 hp2

theorem jsGet_mem {κ α : Type} [DecidableEq κ] {l : List (κ × α)} {k : κ}
    {v : α} (h : jsGet l k = some v) : (k, v) ∈ l := by
  induction l with
  | nil => simp [jsGet] at h
  | cons a t ih =>
      rw [jsGet_cons] at h
      by_cases ha : a.1 = k
      · rw [if_pos ha] at h
        injection h with hv
        have hav : a = (k, v) := by
          obtain ⟨a1, a2⟩ := a
          simp only at ha hv
          rw [ha, hv]
        rw [hav]
        exact List.mem_cons_self _ _
      · rw [if_neg ha] at h
        exact List.mem_cons_of_mem a (ih h)

theorem le_foldl_max {α : Type} [LinearOrder α] (l : List α) (a : α) :
    a ≤ l.foldl max a := by
  induction l generalizing a with
  | nil => exact le_refl a
  | cons x t ih => exact le_trans (le_max_left a x) (ih (max a x))

theorem foldl_max_ge_mem {α : Type} [LinearOrder α] {l : List α} {x : α}
    (a : α) (h : x ∈ l) : x ≤ l.foldl max a := by
  induction l generalizing a with
  | nil => simp at h
  | cons y t ih =>
      rcases List.mem_cons.mp h with rfl | h2
      · exact le_trans (le_max_right a x) (le_foldl_max t (max a x))
      · exact ih (max a y) h2

theorem foldl_max_mem {α : Type} [LinearOrder α] (l : List α) (a : α) :
    l.foldl max a = a ∨ l.foldl max a ∈ l := by
  induction l generalizing a with
  | nil => exact Or.inl rfl
  | cons x t ih =>
      rcases ih (max a x) with h | h
      · rcases max_choice a x with hm | hm
        · exact Or.inl (by rw [List.foldl_cons, h, hm])
        · exact Or.inr (by rw [List.foldl_cons, h, hm]; exact List.mem_cons_self x t)
      · exact Or.inr (List.mem_cons_of_mem x h)

theorem foldl_min_le {α : Type} [LinearOrder α] (l : List α) (a : α) :
    l.foldl min a ≤ a := by
  induction l generalizing a with
  | nil => exact le_refl a
  | cons x t ih => exact le_trans (ih (min a x)) (min_le_left a x)

theorem le_foldl_min {α : Type} [LinearOrder α] {l : List α} {a c : α}
    (h1 : c ≤ a) (h2 : ∀ x ∈ l, c ≤ x) : c ≤ l.foldl min a := by
  induction l generalizing a with
  | nil => exact h1
  | cons x t ih =>
      exact ih (le_min h1 (h2 x (List.mem_cons_self x t)))
        (fun y hy => h2 y (List.mem_cons_of_mem x hy))

-- ─── Forward pass (earliest start/finish) characterization ──────────────────

theorem cpForward_append (pre : List Task) (t : Task) :
    cpForward (pre ++ [t]) =
      (let acc := cpForward pre
       let earliest := t.dependencies.foldl
         (fun e dep =>
           match jsGet acc.2 dep with
           | some v => max e v
           | none => e)
         0
       (jsSet acc.1 t.id earliest,
        jsSet acc.2 t.id (earliest + t.estimatedHours))) := by
  unfold cpForward
  rw [List.foldl_append]
  rfl

theorem esFold_mono (m : List (String × ℚ)) (deps : List String) (a : ℚ) :
    a ≤ deps.foldl
      (fun e dep =>
        match jsGet m dep with
        | some v => max e v
        | none => e)
      a := by
  induction deps generalizing a with
  | nil => exact le_refl a
  | cons d ds ih =>
      rw [List.foldl_cons]
      rcases h : jsGet m d with _ | v
      · exact ih a
      · exact le_trans (le_max_left a v) (ih (max a v))

theorem esFold_ge {m : List (String × ℚ)} {deps : List String} {d : String}
    {v : ℚ} (a : ℚ) (hd : d ∈ deps) (hv : jsGet m d = some v) :
    v ≤ deps.foldl
      (fun e dep =>
        match jsGet m dep with
        | some w => max e w
        | none => e)
      a := by
  induction deps generalizing a with
  | nil => simp at hd
  | cons x ds ih =>
      rw [List.foldl_cons]
      rcases List.mem_cons.mp hd with rfl | hd2
      · rw [hv]
        exact le_trans (le_max_right a v) (esFold_mono m ds (max a v))
      · rcases h : jsGet m x with _ | w
        · exact ih a hd2
        · exact ih (max a w) hd2

theorem cpForward_keys (sorted : List Task)
    (hsn : (sorted.map (fun t => t.id)).Nodup) :
    (cpForward sorted).1.map (fun p => p.1) = sorted.map (fun t => t.id) ∧
    (cpForward sorted).2.map (fun p => p.1) = sorted.map (fun t => t.id) := by
  induction sorted using List.reverseRecOn with
  | nil => exact ⟨rfl, rfl⟩
  | append_singleton pre t ih =>
      rw [List.map_append] at hsn
      have hpre := ih (hsn.of_append_left)
      have htid : t.id ∉ pre.map (fun t => t.id) := by
        have := List.disjoint_of_nodup_append hsn
        intro hmem
        exact this hmem (by simp)
      rw [cpForward_append]
      simp only []
      constructor
      · rw [jsSet_keys_new _ _ _ (hpre.1 ▸ htid)]
        simp [hpre.1]
      · rw [jsSet_keys_new _ _ _ (hpre.2 ▸ htid)]
        simp [hpre.2]

theorem cpForward_isSome (sorted : List Task)
    (hsn : (sorted.map (fun t => t.id)).Nodup) (k : String) :
    ((jsGet (cpForward sorted).1 k).isSome ↔ k ∈ sorted.map (fun t => t.id)) ∧
    ((jsGet (cpForward sorted).2 k).isSome ↔ k ∈ sorted.map (fun t => t.id)) := by
  obtain ⟨h1, h2⟩ := cpForward_keys sorted hsn
  exact ⟨by rw [jsGet_isSome_iff, h1], by rw [jsGet_isSome_iff, h2]⟩

theorem cpForward_decomp (sorted : List Task)
    (hsn : (sorted.map (fun t => t.id)).Nodup) :
    ∀ p1 t p2, sorted = p1 ++ t :: p2 →
      ∃ e : ℚ, 0 ≤ e ∧ jsGet (cpForward sorted).1 t.id = some e ∧
        jsGet (cpForward sorted).2 t.id = some (e + t.estimatedHours) ∧
        ∀ d ∈ t.dependencies, ∀ v, jsGet (cpForward sorted).2 d = some v →
          d ∈ p1.map (fun u => u.id) → v ≤ e := by
  induction sorted using List.reverseRecOn with
  | nil =>
      intro p1 t p2 heq
      exact absurd heq (by simp)
  | append_singleton pre x ih =>
      intro p1 t p2 heq
      rw [List.map_append] at hsn
      have hxid : x.id ∉ pre.map (fun t => t.id) := by
        have := List.disjoint_of_nodup_append hsn
        intro hmem
        exact this hmem (by simp)
      have hprekeys := (cpForward_keys pre hsn.of_append_left).2
      rcases p2.eq_nil_or_concat' with rfl | ⟨p2', y, rfl⟩
      · obtain ⟨h1, h2⟩ := List.append_inj' heq rfl
        have htx : t = x := by
          injection h2 with hh
          exact hh.symm
        subst htx
        subst h1
        rw [cpForward_append]
        simp only []
        refine ⟨t.dependencies.foldl
          (fun e dep =>
            match jsGet (cpForward pre).2 dep with
            | some v => max e v
            | none => e)
          0, esFold_mono _ _ 0, ?_, ?_, ?_⟩
        · rw [jsGet_set, if_pos rfl]
        · rw [jsGet_set, if_pos rfl]
        · intro d hd v hv hdpre
          have hdx : d ≠ t.id := fun h => hxid (h ▸ hdpre)
          rw [jsGet_set, if_neg hdx] at hv
          exact esFold_ge 0 hd hv
      · have heq2 : pre ++ [x] = (p1 ++ t :: p2') ++ [y] := by
          rw [heq]
          simp
        obtain ⟨h1, h2⟩ := List.append_inj' heq2 rfl
        have htpre : t ∈ pre := h1 ▸ List.mem_append.mpr
          (Or.inr (List.mem_cons_self t p2'))
        have htid_ne : t.id ≠ x.id := by
          intro h
          exact hxid (h ▸ List.mem_map_of_mem _ htpre)
        obtain ⟨e, he0, hes, hef, hdom⟩ := ih hsn.of_append_left p1 t p2' h1
        rw [cpForward_append]
        simp only []
        refine ⟨e, he0, ?_, ?_, ?_⟩
        · rw [jsGet_set, if_neg htid_ne]
          exact hes
        · rw [jsGet_set, if_neg htid_ne]
          exact hef
        · intro d hd v hv hdp1
          have hdpre : d ∈ pre.map (fun u => u.id) := by
            rw [h1, List.map_append]
            exact List.mem_append.mpr (Or.inl hdp1)
          have hdx : d ≠ x.id := fun h => hxid (h ▸ hdpre)
          rw [jsGet_set, if_neg hdx] at hv
          exact hdom d hd v hv hdp1

theorem cpProjectEnd_ge {ef : List (String × ℚ)} {k : String} {v : ℚ}
    (h : jsGet ef k = some v) : v ≤ cpProjectEnd ef := by
  unfold cpProjectEnd
  exact foldl_max_ge_mem 0 (List.mem_map_of_mem _ (jsGet_mem h))

theorem cpProjectEnd_attained {ef : List (String × ℚ)} (hne : ef ≠ [])
    (hnn : ∀ p ∈ ef, 0 ≤ p.2) (hkeys : (ef.map (fun p => p.1)).Nodup) :
    ∃ k v, jsGet ef k = some v ∧ v = cpProjectEnd ef ∧
      k ∈ ef.map (fun p => p.1) := by
  have hvne : ef.map (fun p => p.2) ≠ [] := by simpa using hne
  have hmem : cpProjectEnd ef ∈ ef.map (fun p => p.2) := by
    unfold cpProjectEnd
    rcases foldl_max_mem (ef.map (fun p => p.2)) 0 with h | h
    · rcases List.exists_mem_of_ne_nil _ hvne with ⟨w, hw⟩
      have hw0 : 0 ≤ w := by
        obtain ⟨p, hp, hpw⟩ := List.mem_map.mp hw
        exact hpw ▸ hnn p hp
      have hwle : w ≤ (ef.map (fun p => p.2)).foldl max 0 :=
        foldl_max_ge_mem 0 hw
      rw [h] at hwle
      have hweq : w = 0 := le_antisymm hwle hw0
      rw [h, ← hweq]
      exact hw
    · exact h
  obtain ⟨p, hp, hpv⟩ := List.mem_map.mp hmem
  exact ⟨p.1, p.2, mem_jsGet hkeys hp, hpv, List.mem_map_of_mem _ hp⟩

-- ─── Backward pass (latest start/finish) characterization ───────────────────

theorem cpBackward_rec (tasks : List Task) (t : Task) (back : List Task)
    (projectEnd : ℚ) :
    cpBackward tasks (t :: back) projectEnd =
      (let acc := cpBackward tasks back projectEnd
       let successors := tasks.filter (fun s => s.dependencies.contains t.id)
       let lfT :=
         match successors.map (fun s => (jsGet acc.1 s.id).getD projectEnd) with
         | [] => projectEnd
         | v :: vs => vs.foldl min v
       (jsSet acc.1 t.id (lfT - t.estimatedHours), jsSet acc.2 t.id lfT)) := by
  unfold cpBackward
  rw [List.reverse_cons, List.foldl_append]
  rfl

theorem cpBackward_inv (tasks sorted : List Task)
    (htids : (tasks.map (fun t => t.id)).Nodup)
    (hperm : List.Perm sorted tasks)
    (hest : ∀ t ∈ tasks, 0 ≤ t.estimatedHours) :
    ∀ back front, sorted = front ++ back →
      (∀ k, (jsGet (cpBackward tasks back
          (cpProjectEnd (cpForward sorted).2)).1 k).isSome ↔
          k ∈ back.map (fun t => t.id)) ∧
      (∀ b1 s b2, back = b1 ++ s :: b2 →
        ∃ lfv, jsGet (cpBackward tasks back
            (cpProjectEnd (cpForward sorted).2)).2 s.id = some lfv ∧
          jsGet (cpBackward tasks back
            (cpProjectEnd (cpForward sorted).2)).1 s.id =
              some (lfv - s.estimatedHours) ∧
          (jsGet (cpForward sorted).2 s.id).getD 0 ≤ lfv ∧
          lfv ≤ cpProjectEnd (cpForward sorted).2) := by
  have hsn : (sorted.map (fun t => t.id)).Nodup :=
    ((hperm.map (fun t => t.id)).nodup_iff).mpr htids
  intro back
  induction back with
  | nil =>
      intro front heq
      constructor
      · intro k
        simp [cpBackward, jsGet]
      · intro b1 s b2 hd
        exact absurd hd (by simp)
  | cons t back ih =>
      intro front heq
      have heq' : sorted = (front ++ [t]) ++ back := by
        rw [heq, List.append_assoc]
        rfl
      obtain ⟨ihk, ihd⟩ := ih (front ++ [t]) heq'
      have ht_back : t.id ∉ back.map (fun u => u.id) := by
        have h1 : (sorted.map (fun u => u.id)).Nodup := hsn
        rw [heq, List.map_append, List.map_cons] at h1
        have h2 := h1.of_append_right
        rw [List.nodup_cons] at h2
        exact h2.1
      obtain ⟨e_t, he_t0, hes_t, hef_t, -⟩ :=
        cpForward_decomp sorted hsn front t back heq
      have hefval_t : (jsGet (cpForward sorted).2 t.id).getD 0 =
          e_t + t.estimatedHours := by rw [hef_t]; rfl
      have hPEt : e_t + t.estimatedHours ≤ cpProjectEnd (cpForward sorted).2 :=
        cpProjectEnd_ge hef_t
      -- bounds on the successor terms
      have hterm : ∀ x ∈ (tasks.filter
            (fun s => s.dependencies.contains t.id)).map
            (fun s => (jsGet (cpBackward tasks back
              (cpProjectEnd (cpForward sorted).2)).1 s.id).getD
              (cpProjectEnd (cpForward sorted).2)),
          e_t + t.estimatedHours ≤ x ∧ x ≤ cpProjectEnd (cpForward sorted).2 := by
        intro x hx
        obtain ⟨s, hsf, rfl⟩ := List.mem_map.mp hx
        have hs_tasks : s ∈ tasks := List.mem_of_mem_filter hsf
        have hs_dep : t.id ∈ s.dependencies := by
          have := List.of_mem_filter hsf
          exact List.elem_iff.mp this
        rcases hjs : jsGet (cpBackward tasks back
            (cpProjectEnd (cpForward sorted).2)).1 s.id with _ | w
        · simp only [Option.getD_none]
          exact ⟨hPEt, le_refl _⟩
        · simp only [Option.getD_some]
          have hsid_back : s.id ∈ back.map (fun u => u.id) := by
            rw [← ihk s.id, hjs]
            rfl
          obtain ⟨s', hs'back, hs'id⟩ := List.mem_map.mp hsid_back
          have hs'_tasks : s' ∈ tasks := hperm.mem_iff.mp
            (heq' ▸ List.mem_append.mpr (Or.inr hs'back))
          have hss' : s' = s := id_inj htids s' hs'_tasks s hs_tasks hs'id
          subst hss'
          obtain ⟨b1, b2, hbdec⟩ := List.append_of_mem hs'back
          obtain ⟨lfv, hlf, hls, heflf, hlfPE⟩ := ihd b1 s' b2 hbdec
          rw [hjs] at hls
          injection hls with hw
          have hsorted_dec : sorted = (front ++ t :: b1) ++ s' :: b2 := by
            rw [heq, hbdec]
            simp
          obtain ⟨e_s, -, hes_s, hef_s, hdom_s⟩ :=
            cpForward_decomp sorted hsn (front ++ t :: b1) s' b2 hsorted_dec
          have hefval_s : (jsGet (cpForward sorted).2 s'.id).getD 0 =
              e_s + s'.estimatedHours := by rw [hef_s]; rfl
          have hts : e_t + t.estimatedHours ≤ e_s := by
            apply hdom_s t.id hs_dep _ hef_t
            rw [List.map_append, List.map_cons]
            exact List.mem_append.mpr (Or.inr (List.mem_cons_self _ _))
          rw [hefval_s] at heflf
          constructor
          · rw [hw]
            linarith
          · rw [hw]
            have hse := hest s' hs'_tasks
            linarith
      rw [cpBackward_rec]
      simp only []
      constructor
      · intro k
        rw [jsGet_set]
        by_cases hk : k = t.id
        · simp [hk]
        · rw [if_neg hk, ihk k]
          simp only [List.map_cons, List.mem_cons]
          constructor
          · exact Or.inr
          · rintro (hh | hh)
            · exact absurd hh hk
            · exact hh
      · intro b1 s b2 hd
        cases b1 with
        | nil =>
            simp only [List.nil_append] at hd
            injection hd with hts hbk
            subst hts
            refine ⟨(match (tasks.filter
                (fun s => s.dependencies.contains t.id)).map
                (fun s => (jsGet (cpBackward tasks back
                  (cpProjectEnd (cpForward sorted).2)).1 s.id).getD
                  (cpProjectEnd (cpForward sorted).2)) with
              | [] => cpProjectEnd (cpForward sorted).2
              | v :: vs => vs.foldl min v), ?_, ?_, ?_, ?_⟩
            · rw [jsGet_set, if_pos rfl]
            · rw [jsGet_set, if_pos rfl]
            · rw [hefval_t]
              rcases hsucc : (tasks.filter
                  (fun s => s.dependencies.contains t.id)).map
                  (fun s => (jsGet (cpBackward tasks back
                    (cpProjectEnd (cpForward sorted).2)).1 s.id).getD
                    (cpProjectEnd (cpForward sorted).2)) with _ | ⟨v, vs⟩
              · simp only [hsucc]
                exact hPEt
              · simp only [hsucc]
                have hvmem : v ∈ (tasks.filter
                    (fun s => s.dependencies.contains t.id)).map
                    (fun s => (jsGet (cpBackward tasks back
                      (cpProjectEnd (cpForward sorted).2)).1 s.id).getD
                      (cpProjectEnd (cpForward sorted).2)) := by
                  rw [hsucc]
                  exact List.mem_cons_self v vs
                apply le_foldl_min (hterm v hvmem).1
                intro x hx
                have hxmem : x ∈ (tasks.filter
                    (fun s => s.dependencies.contains t.id)).map
                    (fun s => (jsGet (cpBackward tasks back
                      (cpProjectEnd (cpForward sorted).2)).1 s.id).getD
                      (cpProjectEnd (cpForward sorted).2)) := by
                  rw [hsucc]
                  exact List.mem_cons_of_mem v hx
                exact (hterm x hxmem).1
            · rcases hsucc : (tasks.filter
                  (fun s => s.dependencies.contains t.id)).map
                  (fun s => (jsGet (cpBackward tasks back
                    (cpProjectEnd (cpForward sorted).2)).1 s.id).getD
                    (cpProjectEnd (cpForward sorted).2)) with _ | ⟨v, vs⟩
              · simp only [hsucc]
                exact le_refl _
              · simp only [hsucc]
                have hvmem : v ∈ (tasks.filter
                    (fun s => s.dependencies.contains t.id)).map
                    (fun s => (jsGet (cpBackward tasks back
                      (cpProjectEnd (cpForward sorted).2)).1 s.id).getD
                      (cpProjectEnd (cpForward sorted).2)) := by
                  rw [hsucc]
                  exact List.mem_cons_self v vs
                exact le_trans (foldl_min_le vs v) (hterm v hvmem).2
        | cons b b1' =>
            rw [List.cons_append] at hd
            injection hd with htb hback
            obtain ⟨lfv, hlf, hls, heflf, hlfPE⟩ := ihd b1' s b2 hback
            have hsid_ne : s.id ≠ t.id := by
              intro hh
              apply ht_back
              rw [← hh, hback]
              exact List.mem_map_of_mem _
                (List.mem_append.mpr (Or.inr (List.mem_cons_self s b2)))
            refine ⟨lfv, ?_, ?_, heflf, hlfPE⟩
            · rw [jsGet_set, if_neg hsid_ne]
              exact hlf
            · rw [jsGet_set, if_neg hsid_ne]
              exact hls

-- ─── C4: critical path ──────────────────────────────────────────────────────

theorem computeCriticalPath_fold_mono (tasks : List Task) :
    ∀ (l : List Task) (acc : List String) (x : String), x ∈ acc →
      x ∈ l.foldl
        (fun acc t =>
          if |taskFloat tasks t.id| < 1 / 100 then
            if acc.contains t.id then acc else acc ++ [t.id]
          else acc)
        acc := by
  intro l
  induction l with
  | nil => intro acc x hx; exact hx
  | cons y ys ih =>
      intro acc x hx
      rw [List.foldl_cons]
      apply ih
      split
      · split
        · exact hx
        · exact List.mem_append.mpr (Or.inl hx)
      · exact hx

theorem computeCriticalPath_mem {tasks : List Task} {t : Task}
    (ht : t ∈ tasks) (hf : |taskFloat tasks t.id| < 1 / 100) :
    t.id ∈ computeCriticalPath tasks := by
  unfold computeCriticalPath
  suffices h : ∀ (l : List Task) (acc : List String), t ∈ l →
      t.id ∈ l.foldl
        (fun acc t =>
          if |taskFloat tasks t.id| < 1 / 100 then
            if acc.contains t.id then acc else acc ++ [t.id]
          else acc)
        acc from h tasks [] ht
  intro l
  induction l with
  | nil => intro acc h; simp at h
  | cons y ys ih =>
      intro acc hmem
      rw [List.foldl_cons]
      rcases List.mem_cons.mp hmem with rfl | h2
      · apply computeCriticalPath_fold_mono
        rw [if_pos hf]
        by_cases hc : acc.contains t.id = true
        · rw [if_pos hc]
          exact List.elem_iff.mp hc
        · rw [if_neg hc]
          exact List.mem_append.mpr (Or.inr (List.mem_singleton.mpr rfl))
      · exact ih _ h2

/-- **C4.** Every float computed by `computeCriticalPath` (latest start
minus earliest start, the quantity `taskFloat`) is ≥ −0.01, and the
critical-path set is non-empty whenever some task has nonzero estimated
hours.  Hypotheses are the spec's data-model invariants (unique ids,
set-valued dependencies, non-negative estimated hours). -/
theorem claim_C4_critical_path (tasks : List Task)
    (hids : (tasks.map (fun t => t.id)).Nodup)
    (hdeps : ∀ t ∈ tasks, t.dependencies.Nodup)
    (hest : ∀ t ∈ tasks, 0 ≤ t.estimatedHours) :
    (∀ t ∈ tasks, -(1 / 100 : ℚ) ≤ taskFloat tasks t.id) ∧
    ((∃ t ∈ tasks, t.estimatedHours ≠ 0) → computeCriticalPath tasks ≠ []) := by
  have hperm := topologicalSort_perm hids hdeps
  have hsn : ((topologicalSort tasks).map (fun t => t.id)).Nodup :=
    ((hperm.map (fun t => t.id)).nodup_iff).mpr hids
  have hbwd := cpBackward_inv tasks (topologicalSort tasks) hids hperm hest
    (topologicalSort tasks) [] (by simp)
  have hfloat0 : ∀ t ∈ tasks, 0 ≤ taskFloat tasks t.id ∧
      ∀ lfv e : ℚ, jsGet (cpMaps tasks).2 t.id = some (lfv - t.estimatedHours) →
        jsGet (cpMaps tasks).1 t.id = some e → taskFloat tasks t.id =
          (lfv - t.estimatedHours) - e := by
    intro t ht
    have hts : t ∈ topologicalSort tasks := hperm.mem_iff.mpr ht
    obtain ⟨p1, p2, hdec⟩ := List.append_of_mem hts
    obtain ⟨e, he0, hes, hef, -⟩ :=
      cpForward_decomp (topologicalSort tasks) hsn p1 t p2 hdec
    obtain ⟨lfv, hlf, hls, heflf, hlfPE⟩ := hbwd.2 p1 t p2 hdec
    rw [hef] at heflf
    simp only [Option.getD_some] at heflf
    constructor
    · unfold taskFloat cpMaps
      simp only []
      rw [hls, hes]
      simp only [Option.getD_some]
      linarith
    · intro lfv' e' h1 h2
      unfold taskFloat cpMaps
      simp only []
      unfold cpMaps at h1 h2
      simp only [] at h1 h2
      rw [h1, h2]
      simp
  constructor
  · intro t ht
    have := (hfloat0 t ht).1
    linarith
  · rintro ⟨t0, ht0, hne0⟩
    have htasks_ne : tasks ≠ [] := List.ne_nil_of_mem ht0
    have hsorted_ne : topologicalSort tasks ≠ [] := by
      intro h
      rw [h] at hperm
      exact htasks_ne hperm.symm.eq_nil
    have hkeys := (cpForward_keys (topologicalSort tasks) hsn).2
    have hEFne : (cpForward (topologicalSort tasks)).2 ≠ [] := by
      intro h
      have hk2 := hkeys
      rw [h] at hk2
      exact hsorted_ne (List.map_eq_nil.mp hk2.symm)
    have hkeysNodup : ((cpForward (topologicalSort tasks)).2.map
        (fun p => p.1)).Nodup := by rw [hkeys]; exact hsn
    have hvals : ∀ p ∈ (cpForward (topologicalSort tasks)).2, 0 ≤ p.2 := by
      intro p hp
      have hpmem : p.1 ∈ (topologicalSort tasks).map (fun t => t.id) := by
        rw [← hkeys]
        exact List.mem_map_of_mem _ hp
      obtain ⟨u, hu, huid⟩ := List.mem_map.mp hpmem
      obtain ⟨q1, q2, hudec⟩ := List.append_of_mem hu
      obtain ⟨e, he0, -, hef, -⟩ :=
        cpForward_decomp (topologicalSort tasks) hsn q1 u q2 hudec
      have hpget := mem_jsGet hkeysNodup hp
      rw [huid] at hef
      rw [hpget] at hef
      injection hef with hval
      have huest := hest u (hperm.mem_iff.mp hu)
      rw [hval]
      linarith
    obtain ⟨k, v, hkv, hvPE, hkmem⟩ :=
      cpProjectEnd_attained hEFne hvals hkeysNodup
    rw [hkeys] at hkmem
    obtain ⟨tstar, hts, htsid⟩ := List.mem_map.mp hkmem
    obtain ⟨p1, p2, hdec⟩ := List.append_of_mem hts
    obtain ⟨e, he0, hes, hef, -⟩ :=
      cpForward_decomp (topologicalSort tasks) hsn p1 tstar p2 hdec
    obtain ⟨lfv, hlf, hls, heflf, hlfPE⟩ := hbwd.2 p1 tstar p2 hdec
    have hef' := hef
    rw [htsid, hkv] at hef'
    injection hef' with hval
    rw [hef] at heflf
    simp only [Option.getD_some] at heflf
    have hlfv : lfv ≤ v := by
      rw [hvPE]
      exact hlfPE
    have hlfeq : lfv = e + tstar.estimatedHours := by
      rw [hval] at hlfv
      linarith
    have htstar_tasks : tstar ∈ tasks := hperm.mem_iff.mp hts
    have hfl : taskFloat tasks tstar.id = 0 := by
      have h2 := (hfloat0 tstar htstar_tasks).2 lfv e hls hes
      rw [h2, hlfeq]
      ring
    exact List.ne_nil_of_mem
      (computeCriticalPath_mem htstar_tasks (by rw [hfl]; norm_num))

/-- Witness for C4 at a concrete input. -/
theorem claim_C4_critical_path_witness :
    (([taskA, taskB].map (fun t => t.id)).Nodup ∧
     (∀ t ∈ [taskA, taskB], t.dependencies.Nodup) ∧
     (∀ t ∈ [taskA, taskB], 0 ≤ t.estimatedHours)) ∧
    ((∀ t ∈ [taskA, taskB], -(1 / 100 : ℚ) ≤ taskFloat [taskA, taskB] t.id) ∧
     ((∃ t ∈ [taskA, taskB], t.estimatedHours ≠ 0) →
       computeCriticalPath [taskA, taskB] ≠ [])) :=
  ⟨⟨by decide, by decide, by decide⟩,
   claim_C4_critical_path [taskA, taskB] (by decide) (by decide) (by decide)⟩

-- ─── C1: schedule feasibility ───────────────────────────────────────────────

theorem startFold_mono (tfd : List (String × ℕ)) (deps : List String) (a : ℕ) :
    a ≤ deps.foldl (fun e dep => max e ((jsGet tfd dep).getD 0)) a := by
  induction deps generalizing a with
  | nil => exact le_refl a
  | cons d ds ih =>
      exact le_trans (le_max_left _ _) (ih _)

theorem startFold_ge {tfd : List (String × ℕ)} {deps : List String}
    {d : String} {v : ℕ} (a : ℕ) (hd : d ∈ deps)
    (hv : jsGet tfd d = some v) :
    v ≤ deps.foldl (fun e dep => max e ((jsGet tfd dep).getD 0)) a := by
  induction deps generalizing a with
  | nil => simp at hd
  | cons x ds ih =>
      rw [List.foldl_cons]
      rcases List.mem_cons.mp hd with rfl | hd2
      · rw [hv]
        exact le_trans (le_max_right a v) (startFold_mono tfd ds _)
      · exact ih _ hd2

theorem scheduleFold_append (team cids : List String) (pre : List Task)
    (x : Task) :
    scheduleFold team cids (pre ++ [x]) =
      scheduleStep team cids (scheduleFold team cids pre) x := by
  unfold scheduleFold
  rw [List.foldl_append]
  rfl

theorem scheduleFold_inv (team cids : List String) (ordered : List Task)
    (hon : (ordered.map (fun t => t.id)).Nodup)
    (htopo : ∀ p1 t p2, ordered = p1 ++ t :: p2 → ∀ d ∈ t.dependencies,
      d ∈ ordered.map (fun u => u.id) → d ∈ p1.map (fun u => u.id)) :
    ∀ pre rest, ordered = pre ++ rest →
      ((scheduleFold team cids pre).2.2.map (fun s => s.taskId) =
        pre.map (fun t => t.id)) ∧
      (∀ s ∈ (scheduleFold team cids pre).2.2,
        jsGet (scheduleFold team cids pre).2.1 s.taskId = some s.endDay) ∧
      (∀ s ∈ (scheduleFold team cids pre).2.2, ∃ t ∈ pre, t.id = s.taskId ∧
        ∀ dep ∈ t.dependencies, ∀ s2 ∈ (scheduleFold team cids pre).2.2,
          s2.taskId = dep → s2.endDay ≤ s.startDay) := by
  intro pre
  induction pre using List.reverseRecOn with
  | nil =>
      intro rest hsplit
      refine ⟨rfl, ?_, ?_⟩ <;> intro s hs <;> simp [scheduleFold] at hs
  | append_singleton pre x ih =>
      intro rest hsplit
      have hsplit' : ordered = pre ++ (x :: rest) := by
        rw [hsplit]
        simp
      obtain ⟨ih1, ih2, ih3⟩ := ih (x :: rest) hsplit'
      have hx_not_pre : x.id ∉ pre.map (fun t => t.id) := by
        have h1 := hon
        rw [hsplit', List.map_append, List.map_cons] at h1
        have h2 := List.disjoint_of_nodup_append h1
        intro hmem
        exact h2 hmem (List.mem_cons_self _ _)
      have hxid_ordered : x.id ∈ ordered.map (fun u => u.id) := by
        rw [hsplit']
        simp
      -- a dependency equal to x.id would have to occur before its owner
      have hx_dep_pre : ∀ t ∈ pre, x.id ∈ t.dependencies → False := by
        intro t htpre hdep
        obtain ⟨p1, p2, hpdec⟩ := List.append_of_mem htpre
        have hodec : ordered = p1 ++ t :: (p2 ++ (x :: rest)) := by
          rw [hsplit', hpdec]
          simp
        have := htopo p1 t _ hodec x.id hdep hxid_ordered
        apply hx_not_pre
        rw [hpdec, List.map_append]
        exact List.mem_append.mpr (Or.inl this)
      have hx_self : x.id ∉ x.dependencies := by
        intro hdep
        have hodec : ordered = pre ++ x :: rest := hsplit'
        have := htopo pre x rest hodec x.id hdep hxid_ordered
        exact hx_not_pre this
      rw [scheduleFold_append]
      unfold scheduleStep
      simp only []
      constructor
      · simp [ih1]
      constructor
      · intro s hs
        rcases List.mem_append.mp hs with hs1 | hs2
        · have hsid : s.taskId ∈ pre.map (fun t => t.id) := by
            rw [← ih1]
            exact List.mem_map_of_mem _ hs1
          have hne : s.taskId ≠ x.id := fun h => hx_not_pre (h ▸ hsid)
          rw [jsGet_set, if_neg hne]
          exact ih2 s hs1
        · rw [List.mem_singleton] at hs2
          subst hs2
          rw [jsGet_set, if_pos rfl]
      · intro s hs
        rcases List.mem_append.mp hs with hs1 | hs2
        · obtain ⟨t, htpre, htid, hfeas⟩ := ih3 s hs1
          refine ⟨t, List.mem_append.mpr (Or.inl htpre), htid, ?_⟩
          intro dep hdep s2 hs2 hs2id
          rcases List.mem_append.mp hs2 with hs2a | hs2b
          · exact hfeas dep hdep s2 hs2a hs2id
          · rw [List.mem_singleton] at hs2b
            subst hs2b
            simp only [] at hs2id
            exact absurd (hs2id ▸ hdep) (fun h => hx_dep_pre t htpre h)
        · rw [List.mem_singleton] at hs2
          subst hs2
          refine ⟨x, List.mem_append.mpr (Or.inr (List.mem_singleton.mpr rfl)),
            rfl, ?_⟩
          intro dep hdep s2 hs2 hs2id
          rcases List.mem_append.mp hs2 with hs2a | hs2b
          · have hget := ih2 s2 hs2a
            rw [hs2id] at hget
            have hle := startFold_ge 0 hdep hget
            simp only []
            exact le_trans hle (le_max_left _ _)
          · rw [List.mem_singleton] at hs2b
            subst hs2b
            simp only [] at hs2id
            exact absurd (hs2id ▸ hdep) hx_self

theorem rankTasks_ids_perm (l : List Task) :
    List.Perm ((rankTasks l).map (fun t => t.id)) (l.map (fun t => t.id)) := by
  have h := (rankTasks_perm l).map (fun t => t.id)
  rw [List.map_map] at h
  exact h

theorem rankTasks_mem {l : List Task} {u : Task} (hu : u ∈ rankTasks l) :
    ∃ t ∈ l, u = { t with priorityScore := computePriorityScore t l } := by
  have h := (rankTasks_perm l).mem_iff.mp hu
  obtain ⟨t, ht, heq⟩ := List.mem_map.mp h
  exact ⟨t, ht, heq.symm⟩

/-- **C1 (amended).** Schedule feasibility holds whenever the dependency
graph over the scheduled (non-`done`) tasks is acyclic — equivalently, when
the Kahn loop emits every scheduled task (`hacyc`): every slot starts no
earlier than the end of any of its task's dependencies' slots.  With cyclic
dependencies the property fails (see the counterexample): tasks in the
unresolved-cycle tail are scheduled in input order, before their
dependencies. -/
theorem claim_C1_schedule_feasibility (tasks : List Task) (team : List String)
    (hids : (tasks.map (fun t => t.id)).Nodup)
    (hdeps : ∀ t ∈ tasks, t.dependencies.Nodup)
    (hacyc : (kahnList (rankTasks (tasks.filter
        (fun t => decide (t.status ≠ TaskStatus.done))))).length =
      (rankTasks (tasks.filter
        (fun t => decide (t.status ≠ TaskStatus.done)))).length) :
    ∀ t ∈ tasks, ∀ s ∈ (optimizeSchedule tasks team).slots, s.taskId = t.id →
      ∀ dep ∈ t.dependencies, ∀ s2 ∈ (optimizeSchedule tasks team).slots,
        s2.taskId = dep → s2.endDay ≤ s.startDay := by
  intro t ht s hs hsid dep hdep s2 hs2 hs2id
  by_cases hlen : tasks.length = 0
  · rw [List.length_eq_zero] at hlen
    subst hlen
    simp [optimizeSchedule] at hs
  have hfil_ids : ((tasks.filter
      (fun t => decide (t.status ≠ TaskStatus.done))).map
        (fun t => t.id)).Nodup :=
    hids.sublist ((List.filter_sublist tasks).map (fun t => t.id))
  have hscored_ids : ((rankTasks (tasks.filter
      (fun t => decide (t.status ≠ TaskStatus.done)))).map
        (fun t => t.id)).Nodup :=
    ((rankTasks_ids_perm _).nodup_iff).mpr hfil_ids
  have hscored_deps : ∀ u ∈ rankTasks (tasks.filter
      (fun t => decide (t.status ≠ TaskStatus.done))), u.dependencies.Nodup := by
    intro u hu
    obtain ⟨t', ht', heq⟩ := rankTasks_mem hu
    rw [heq]
    exact hdeps t' (List.mem_of_mem_filter ht')
  have hperm := topologicalSort_perm hscored_ids hscored_deps
  have hord : topologicalSort (rankTasks (tasks.filter
      (fun t => decide (t.status ≠ TaskStatus.done)))) =
      kahnList (rankTasks (tasks.filter
        (fun t => decide (t.status ≠ TaskStatus.done)))) := by
    unfold topologicalSort
    rw [if_neg (by omega)]
  have hon : ((topologicalSort (rankTasks (tasks.filter
      (fun t => decide (t.status ≠ TaskStatus.done))))).map
        (fun t => t.id)).Nodup :=
    ((hperm.map (fun t => t.id)).nodup_iff).mpr hscored_ids
  obtain ⟨finv, -⟩ := kahnRun_spec hscored_ids hscored_deps
  have htopo : ∀ p1 u p2, topologicalSort (rankTasks (tasks.filter
      (fun t => decide (t.status ≠ TaskStatus.done)))) = p1 ++ u :: p2 →
      ∀ d ∈ u.dependencies,
        d ∈ (topologicalSort (rankTasks (tasks.filter
          (fun t => decide (t.status ≠ TaskStatus.done))))).map
            (fun v => v.id) →
        d ∈ p1.map (fun v => v.id) := by
    intro p1 u p2 hdec d hd hdmem
    rw [hord] at hdec
    apply finv.topo p1 u p2 hdec d hd
    have hds : d ∈ (rankTasks (tasks.filter
        (fun t => decide (t.status ≠ TaskStatus.done)))).map
          (fun v => v.id) := ((hperm.map (fun v => v.id)).mem_iff).mp hdmem
    exact (taskMapOf_isSome_iff _ d).mpr hds
  obtain ⟨-, -, hfeas⟩ := scheduleFold_inv team
    (computeCriticalPath (rankTasks (tasks.filter
      (fun t => decide (t.status ≠ TaskStatus.done)))))
    (topologicalSort (rankTasks (tasks.filter
      (fun t => decide (t.status ≠ TaskStatus.done))))) hon htopo
    (topologicalSort (rankTasks (tasks.filter
      (fun t => decide (t.status ≠ TaskStatus.done))))) [] (by simp)
  have hslots : (optimizeSchedule tasks team).slots =
      (scheduleFold team
        (computeCriticalPath (rankTasks (tasks.filter
          (fun t => decide (t.status ≠ TaskStatus.done)))))
        (topologicalSort (rankTasks (tasks.filter
          (fun t => decide (t.status ≠ TaskStatus.done)))))).2.2 := by
    simp only [optimizeSchedule, if_neg hlen]
  rw [hslots] at hs hs2
  obtain ⟨u, hu_ord, huid, hufeas⟩ := hfeas s hs
  have hu_scored : u ∈ rankTasks (tasks.filter
      (fun t => decide (t.status ≠ TaskStatus.done))) := hperm.mem_iff.mp hu_ord
  obtain ⟨t', ht'fil, ht'eq⟩ := rankTasks_mem hu_scored
  have ht'_tasks : t' ∈ tasks := List.mem_of_mem_filter ht'fil
  have ht'id : t'.id = t.id := by
    have h1 : u.id = t'.id := by rw [ht'eq]
    rw [← h1, huid, hsid]
  have ht't : t' = t := id_inj hids t' ht'_tasks t ht ht'id
  have hdeps_eq : u.dependencies = t.dependencies := by
    rw [ht'eq, ht't]
  exact hufeas dep (hdeps_eq ▸ hdep) s2 hs2 hs2id

/-- Counterexample to C1 as stated: a 2-cycle (`x` depends on `y`, `y`
depends on `x`) lands in the unresolved-cycle tail and is scheduled in input
order, so `x`'s slot (days 0–1) starts before its dependency `y`'s slot
(days 1–2) ends. -/
theorem claim_C1_schedule_feasibility_counterexample :
    ¬ (∀ t ∈ [cycTaskX, cycTaskY],
        ∀ s ∈ (optimizeSchedule [cycTaskX, cycTaskY] ["a"]).slots,
          s.taskId = t.id → ∀ dep ∈ t.dependencies,
            ∀ s2 ∈ (optimizeSchedule [cycTaskX, cycTaskY] ["a"]).slots,
              s2.taskId = dep → s2.endDay ≤ s.startDay) := by
  with_unfolding_all decide

/-- Witness for the amended C1 at a concrete acyclic input. -/
theorem claim_C1_schedule_feasibility_witness :
    (([taskA, taskB].map (fun t => t.id)).Nodup ∧
     (∀ t ∈ [taskA, taskB], t.dependencies.Nodup) ∧
     (kahnList (rankTasks (([taskA, taskB] : List Task).filter
        (fun t => decide (t.status ≠ TaskStatus.done))))).length =
       (rankTasks (([taskA, taskB] : List Task).filter
        (fun t => decide (t.status ≠ TaskStatus.done)))).length) ∧
    (∀ t ∈ [taskA, taskB],
      ∀ s ∈ (optimizeSchedule [taskA, taskB] ["Alice"]).slots, s.taskId = t.id →
        ∀ dep ∈ t.dependencies,
          ∀ s2 ∈ (optimizeSchedule [taskA, taskB] ["Alice"]).slots,
            s2.taskId = dep → s2.endDay ≤ s.startDay) :=
  ⟨⟨by decide, by decide, by with_unfolding_all decide⟩,
   claim_C1_schedule_feasibility [taskA, taskB] ["Alice"] (by decide)
     (by decide) (by with_unfolding_all decide)⟩

end PlanPanni
